import Mathlib

/-!
Verification of the Ethereal move-generation core (`src/unnamed/part_000`) and
its transposition / pawn hash tables (`src/src/transposition.c`).

Machine integers (`BitBoard` = `uint64_t`) are modelled as `Nat` with explicit
wrap-around (`% 2 ^ 64`) at the operations where C wraps: left shifts and the
magic multiplication.  C `int` fields that can go negative (`Move.Start`,
`Move.End`, scores) are modelled as `Int`.  Loops that iterate over the set
bits of a 64-bit word run a structural fuel of 64, which covers every value a
`uint64_t` can hold (a 64-bit word has at most 64 set bits, and at most 63
halvings reach its lowest set bit).
-/

namespace Ethereal

/-- All 64 bits set (the value of `~0ull`). -/
def MASK64 : Nat := 2 ^ 64 - 1

/-- C `uint64_t` left shift: shifts wrap modulo `2 ^ 64`. -/
def shl64 (x n : Nat) : Nat := (x <<< n) % 2 ^ 64

/-- C `~x` on `uint64_t`: complement within 64 bits. -/
def compl64 (x : Nat) : Nat := MASK64 ^^^ x

/-- Modelled from the spec: `BitTools.h`'s `getLSB` (lowest-set-bit extraction,
spec section 4.2) is not under `src/`.  Fuelled halving; 64 units of fuel reach
the lowest set bit of any 64-bit value.  On `0` (never a valid argument per the
spec) the model returns `0`, as the usual De Bruijn implementation does. -/
def getLSBAux : Nat → Nat → Nat
  | 0, _ => 0
  | fuel + 1, bb => if bb % 2 = 1 ∨ bb = 0 then 0 else getLSBAux fuel (bb / 2) + 1

/-- Lowest set bit of a 64-bit word (see `getLSBAux`). -/
def getLSB (bb : Nat) : Nat := getLSBAux 64 bb

/- Piece-kind and color constants (from the headers, which are not under
`src/`; the numeric values are never relied on, only their distinctness). -/

def PAWN : Nat := 0
def KNIGHT : Nat := 1
def BISHOP : Nat := 2
def ROOK : Nat := 3
def QUEEN : Nat := 4
def KING : Nat := 5
def EMPTY : Nat := 6
def WHITE : Nat := 0
def BLACK : Nat := 1

/-- The move-type tags of `Moves.h` (header not under `src/`; the tags are an
enumeration, modelled as an inductive). -/
inductive MType where
  | NormalMove
  | PawnDoublePushMove
  | BreaksLeftCastleMove
  | BreaksRightCastleMove
  | BreaksBothCastlesMove
  | LeftCastleMove
  | RightCastleMove
  | PromoteBishopMove
  | PromoteKnightMove
  | PromoteRookMove
  | PromoteQueenMove
  deriving DecidableEq

/-- The `Move` struct.  `Start`/`End` are C `int`s (pawn arithmetic subtracts a
possibly negative shift), hence `Int`.  The C field named `Type` is `Ty` here
(`Type` is reserved in Lean). -/
structure Move where
  Start : Int
  End : Int
  CapturedType : Nat
  MovedType : Nat
  Ty : MType
  deriving DecidableEq

/-- The `Board` struct (external collaborator): color and piece bitboards plus
the precomputed attack maps and magic-lookup data, all read-only during
generation.  Arrays are modelled as functions. -/
structure Board where
  Colors : Nat → Nat
  Pieces : Nat → Nat
  KnightMap : Nat → Nat
  KingMap : Nat → Nat
  OccupancyMaskRook : Nat → Nat
  MagicNumberRook : Nat → Nat
  MagicShiftsRook : Nat → Nat
  MoveDatabaseRook : Nat → Nat → Nat
  OccupancyMaskBishop : Nat → Nat
  MagicNumberBishop : Nat → Nat
  MagicShiftsBishop : Nat → Nat
  MoveDatabaseBishop : Nat → Nat → Nat
  ValidCastles : Nat → Nat → Nat
  Castled : Nat → Nat

/-- C `!turn` for the 0/1 color encoding. -/
def cNot (turn : Nat) : Nat := if turn = 0 then 1 else 0

/-- Modelled from the spec: `Board.c`'s `getSquare` (the `pieceKindAt`
collaborator of spec section 6) is not under `src/`: it returns the occupant
kind of a square, or `EMPTY`. -/
def getSquare (sq : Nat) (b : Board) : Nat :=
  if (b.Pieces PAWN).testBit sq then PAWN
  else if (b.Pieces KNIGHT).testBit sq then KNIGHT
  else if (b.Pieces BISHOP).testBit sq then BISHOP
  else if (b.Pieces ROOK).testBit sq then ROOK
  else if (b.Pieces QUEEN).testBit sq then QUEEN
  else if (b.Pieces KING).testBit sq then KING
  else EMPTY

/-- The `while (bb != 0) { ... use getLSB(bb) ...; bb ^= 1ull << lsb; }`
iteration pattern of every generator, emitting moves in lowest-set-bit-first
order.  Structural fuel; 64 units cover any 64-bit word. -/
def bitLoopAux : Nat → (Nat → List Move) → Nat → List Move
  | 0, _, _ => []
  | fuel + 1, emit, bb =>
    if bb = 0 then []
    else emit (getLSB bb) ++ bitLoopAux fuel emit (bb ^^^ (1 <<< getLSB bb))

/-- See `bitLoopAux`. -/
def bitLoop (emit : Nat → List Move) (bb : Nat) : List Move := bitLoopAux 64 emit bb

/- Rank and file mask constants (headers not under `src/`; standard
little-endian rank-file mapping, square 0 = a1). -/

def RANK_1 : Nat := 0xFF
def RANK_3 : Nat := 0xFF0000
def RANK_6 : Nat := 0x0000FF0000000000
def RANK_8 : Nat := 0xFF00000000000000
def FILE_A : Nat := 0x0101010101010101
def FILE_H : Nat := 0x8080808080808080

/-- Modelled from the spec: the global `LeftCastleBoards` array is defined
outside `src/`; per spec sections 3 and 4.2 it holds, per color, the bitboard
of the squares between king and rook on the queenside (b1,c1,d1 for white;
b8,c8,d8 for black). -/
def LeftCastleBoards (turn : Nat) : Nat :=
  if turn = 0 then 0xE else 0x0E00000000000000

/-- Modelled from the spec: the global `RightCastleBoards` array, the squares
between king and rook on the kingside (f1,g1 for white; f8,g8 for black). -/
def RightCastleBoards (turn : Nat) : Nat :=
  if turn = 0 then 0x60 else 0x6000000000000000

/-- `getKnightMoves`: for each friendly knight, emit a `NormalMove` to every
square of its attack map not occupied by a friendly piece. -/
def getKnightMoves (b : Board) (turn : Nat) : List Move :=
  let friendly := b.Colors turn
  bitLoop
    (fun bit =>
      bitLoop
        (fun lsb => [⟨bit, lsb, getSquare lsb b, KNIGHT, .NormalMove⟩])
        (b.KnightMap bit &&& compl64 friendly))
    (b.Pieces KNIGHT &&& friendly)

/-- The `Type` tag of a normal king move (records which castle rights the move
forfeits, from `getKingMoves` lines 65-74). -/
def kingMoveType (b : Board) (turn : Nat) : MType :=
  if b.ValidCastles turn 0 ≠ 0 then
    if b.ValidCastles turn 1 ≠ 0 then .BreaksBothCastlesMove else .BreaksLeftCastleMove
  else if b.ValidCastles turn 1 ≠ 0 then .BreaksRightCastleMove
  else .NormalMove

/-- A castle move as `getKingMoves` builds it: `malloc` followed by setting only
`Type`; the other fields are left uninitialized in C and are modelled as 0. -/
def castleMove (t : MType) : Move := ⟨0, 0, 0, 0, t⟩

/-- `getKingMoves`, translated faithfully.  C parses the guard
`board->Pieces[KING] & friendly == 0` as `Pieces[KING] & (friendly == 0)`
(`==` binds tighter than `&`), and likewise each castle-emptiness test
`(occupied) & LeftCastleBoards[turn] == 0` as
`occupied & (LeftCastleBoards[turn] == 0)`; the translation preserves both. -/
def getKingMoves (b : Board) (turn : Nat) : List Move :=
  let friendly := b.Colors turn
  if b.Pieces KING &&& (if friendly = 0 then 1 else 0) ≠ 0 then []
  else
    let bit := getLSB (b.Pieces KING &&& friendly)
    let normal :=
      bitLoop
        (fun lsb => [⟨bit, lsb, getSquare lsb b, KING, kingMoveType b turn⟩])
        (b.KingMap bit &&& compl64 friendly)
    let castles :=
      if b.Castled turn = 0 then
        (if b.ValidCastles turn 0 = 1 ∧
            (b.Colors 0 ||| b.Colors 1) &&&
              (if LeftCastleBoards turn = 0 then 1 else 0) ≠ 0 then
          [castleMove .LeftCastleMove]
        else []) ++
        (if b.ValidCastles turn 1 = 1 ∧
            (b.Colors 0 ||| b.Colors 1) &&&
              (if RightCastleBoards turn = 0 then 1 else 0) ≠ 0 then
          [castleMove .RightCastleMove]
        else [])
      else []
    normal ++ castles

/-- The rook-type magic attack lookup (`part_000` lines 256-258):
`dbIndex = (int)((blockers * magic) >> shift)`, multiplication wrapping
modulo `2 ^ 64`. -/
def rookAttacks (b : Board) (bit : Nat) : Nat :=
  let bbBlockers := (b.Colors 0 ||| b.Colors 1) &&& b.OccupancyMaskRook bit
  let dbIndex := (bbBlockers * b.MagicNumberRook bit) % 2 ^ 64 >>> b.MagicShiftsRook bit
  b.MoveDatabaseRook bit dbIndex

/-- The bishop-type magic attack lookup. -/
def bishopAttacks (b : Board) (bit : Nat) : Nat :=
  let bbBlockers := (b.Colors 0 ||| b.Colors 1) &&& b.OccupancyMaskBishop bit
  let dbIndex := (bbBlockers * b.MagicNumberBishop bit) % 2 ^ 64 >>> b.MagicShiftsBishop bit
  b.MoveDatabaseBishop bit dbIndex

/-- The `Type` tag of a rook move (castle-right-breaking from home squares,
`getRookMoves` lines 268-273). -/
def rookMoveType (b : Board) (turn bit : Nat) : MType :=
  if b.ValidCastles turn 0 ≠ 0 ∧ (bit = 0 ∨ bit = 56) then .BreaksLeftCastleMove
  else if b.ValidCastles turn 1 ≠ 0 ∧ (bit = 7 ∨ bit = 63) then .BreaksRightCastleMove
  else .NormalMove

/-- `getRookMoves`. -/
def getRookMoves (b : Board) (turn : Nat) : List Move :=
  let friendly := b.Colors turn
  bitLoop
    (fun bit =>
      bitLoop
        (fun lsb => [⟨bit, lsb, getSquare lsb b, ROOK, rookMoveType b turn bit⟩])
        (rookAttacks b bit &&& compl64 friendly))
    (b.Pieces ROOK &&& friendly)

/-- `getBishopMoves`. -/
def getBishopMoves (b : Board) (turn : Nat) : List Move :=
  let friendly := b.Colors turn
  bitLoop
    (fun bit =>
      bitLoop
        (fun lsb => [⟨bit, lsb, getSquare lsb b, BISHOP, .NormalMove⟩])
        (bishopAttacks b bit &&& compl64 friendly))
    (b.Pieces BISHOP &&& friendly)

/-- `getQueenMoves`: per queen square, a rook-type emission loop followed by a
bishop-type emission loop. -/
def getQueenMoves (b : Board) (turn : Nat) : List Move :=
  let friendly := b.Colors turn
  bitLoop
    (fun bit =>
      bitLoop
        (fun lsb => [⟨bit, lsb, getSquare lsb b, QUEEN, .NormalMove⟩])
        (rookAttacks b bit &&& compl64 friendly) ++
      bitLoop
        (fun lsb => [⟨bit, lsb, getSquare lsb b, QUEEN, .NormalMove⟩])
        (bishopAttacks b bit &&& compl64 friendly))
    (b.Pieces QUEEN &&& friendly)

/-- `getPawnMoves`: whole-board shifted-bitboard generation.  The promotion
bitboards (`onePromote`, `leftPromote`, `rightPromote`) are computed and masked
out exactly as in the source, whose promotion emission loops are commented
out; the moves emitted are the single pushes, double pushes and the two
diagonal captures.  For a turn that is neither `WHITE` nor `BLACK` the C
shift variables are uninitialized; the model returns `[]`. -/
def getPawnMoves (b : Board) (turn : Nat) : List Move :=
  let friendly := b.Colors turn
  let enemy := b.Colors (cNot turn)
  if turn = WHITE then
    let pawns := b.Pieces PAWN &&& friendly
    let oneMove0 := shl64 pawns 8 &&& compl64 (friendly ||| enemy)
    let onePromote := oneMove0 &&& RANK_8
    let oneMove := oneMove0 &&& compl64 RANK_8
    let twoMove := shl64 (oneMove &&& RANK_3) 8 &&& compl64 (friendly ||| enemy)
    let leftMove0 := (shl64 pawns 7 &&& compl64 FILE_A) &&& enemy
    let leftPromote := leftMove0 &&& RANK_8
    let leftMove := leftMove0 &&& compl64 RANK_8
    let rightMove0 := (shl64 pawns 9 &&& compl64 FILE_H) &&& enemy
    let rightPromote := rightMove0 &&& RANK_8
    let rightMove := rightMove0 &&& compl64 RANK_8
    bitLoop (fun lsb => [⟨(lsb : Int) - 8, lsb, EMPTY, PAWN, .NormalMove⟩]) oneMove ++
    bitLoop (fun lsb => [⟨(lsb : Int) - 16, lsb, EMPTY, PAWN, .PawnDoublePushMove⟩]) twoMove ++
    bitLoop (fun lsb => [⟨(lsb : Int) - 7, lsb, getSquare lsb b, PAWN, .NormalMove⟩]) leftMove ++
    bitLoop (fun lsb => [⟨(lsb : Int) - 9, lsb, getSquare lsb b, PAWN, .NormalMove⟩]) rightMove
  else if turn = BLACK then
    let pawns := b.Pieces PAWN &&& friendly
    let oneMove0 := (pawns >>> 8) &&& compl64 (friendly ||| enemy)
    let onePromote := oneMove0 &&& RANK_1
    let oneMove := oneMove0 &&& compl64 RANK_1
    let twoMove := ((oneMove &&& RANK_6) >>> 8) &&& compl64 (friendly ||| enemy)
    let leftMove0 := ((pawns >>> 7) &&& compl64 FILE_H) &&& enemy
    let leftPromote := leftMove0 &&& RANK_1
    let leftMove := leftMove0 &&& compl64 RANK_1
    let rightMove0 := ((pawns >>> 9) &&& compl64 FILE_A) &&& enemy
    let rightPromote := rightMove0 &&& RANK_1
    let rightMove := rightMove0 &&& compl64 RANK_1
    bitLoop (fun lsb => [⟨(lsb : Int) + 8, lsb, EMPTY, PAWN, .NormalMove⟩]) oneMove ++
    bitLoop (fun lsb => [⟨(lsb : Int) + 16, lsb, EMPTY, PAWN, .PawnDoublePushMove⟩]) twoMove ++
    bitLoop (fun lsb => [⟨(lsb : Int) + 7, lsb, getSquare lsb b, PAWN, .NormalMove⟩]) leftMove ++
    bitLoop (fun lsb => [⟨(lsb : Int) + 9, lsb, getSquare lsb b, PAWN, .NormalMove⟩]) rightMove
  else []

/-- `validateMove`: 1 when the mover's king square is not attacked by any
enemy piece after the (already applied) move, else 0.  The rook-type lookup
(line 401 of the source) takes the database value without masking out friendly
squares; the bishop-type lookup (line 394) does mask them — the asymmetry is
preserved. -/
def validateMove (b : Board) (turn : Nat) : Nat :=
  let friendly := b.Colors turn
  let enemy := b.Colors (cNot turn)
  let king := friendly &&& b.Pieces KING
  let kingSquare := getLSB king
  if (b.Pieces BISHOP ||| b.Pieces QUEEN) &&& enemy &&&
      (bishopAttacks b kingSquare &&& compl64 friendly) ≠ 0 then 0
  else if (b.Pieces ROOK ||| b.Pieces QUEEN) &&& enemy &&& rookAttacks b kingSquare ≠ 0 then 0
  else if b.KnightMap kingSquare &&& (enemy &&& b.Pieces KNIGHT) ≠ 0 then 0
  else if turn = WHITE ∧
      ((shl64 king 7 &&& compl64 FILE_A) &&& (enemy &&& b.Pieces PAWN) ≠ 0 ∨
       (shl64 king 9 &&& compl64 FILE_H) &&& (enemy &&& b.Pieces PAWN) ≠ 0) then 0
  else if turn = BLACK ∧
      (((king >>> 7) &&& compl64 FILE_H) &&& (enemy &&& b.Pieces PAWN) ≠ 0 ∨
       ((king >>> 9) &&& compl64 FILE_A) &&& (enemy &&& b.Pieces PAWN) ≠ 0) then 0
  else if b.KingMap kingSquare &&& (enemy &&& b.Pieces KING) ≠ 0 then 0
  else 1

/-- `validateCheck`: apply each candidate, test king safety, revert, keep the
candidate iff the test passed.  `ApplyMove`/`RevertMove` live outside `src/`
(spec section 6 gives their contract) and are passed as parameters; the board
is threaded through, exactly as the single shared C board is. -/
def validateCheck (applyMove revertMove : Board → Move → Nat → Board)
    (b : Board) (turn : Nat) : List Move → List Move
  | [] => []
  | m :: rest =>
    let b1 := applyMove b m turn
    let valid := validateMove b1 turn
    let b2 := revertMove b1 m turn
    if valid = 1 then m :: validateCheck applyMove revertMove b2 turn rest
    else validateCheck applyMove revertMove b2 turn rest

/-- The pseudo-legal candidate list built by `getAllMoves` before filtering,
in the source's generator order. -/
def pseudoLegalMoves (b : Board) (turn : Nat) : List Move :=
  getKingMoves b turn ++ getQueenMoves b turn ++ getRookMoves b turn ++
  getKnightMoves b turn ++ getBishopMoves b turn ++ getPawnMoves b turn

/-- `getAllMoves`: generate pseudo-legal moves, then filter via
`validateCheck`. -/
def getAllMoves (applyMove revertMove : Board → Move → Nat → Board)
    (b : Board) (turn : Nat) : List Move :=
  validateCheck applyMove revertMove b turn (pseudoLegalMoves b turn)

/- ### Transposition table (`src/src/transposition.c`) -/

/-- Modelled from the spec: `BUCKET_SIZE` is defined in `transposition.h`
(not under `src/`); a bucket is 32 bytes (asserted in the source) holding a
fixed number of entries.  The value is a parameter of the layout only; all
bucket-scan reasoning below is for an arbitrary bucket length. -/
def BUCKET_SIZE : Nat := 4

/-- Modelled from the spec: `MAX_DEPTH` bound on stored depths (header not
under `src/`). -/
def MAX_DEPTH : Nat := 64

/-- Modelled from the spec: the mate score bound (header not under `src/`). -/
def MATE : Int := 16000

def PVNODE : Nat := 1
def CUTNODE : Nat := 2
def ALLNODE : Nat := 3

/-- The `TransEntry` struct.  Field widths live in the header (not under
`src/`); the fields are modelled at mathematical width, with `hash16` always
written as `hash >> 48` of a 64-bit hash. -/
structure TransEntry where
  value : Int
  depth : Nat
  age : Nat
  type : Nat
  bestMove : Nat
  hash16 : Nat
  deriving DecidableEq

/-- An all-zero entry, as `calloc` / `clearTranspositionTable` produce. -/
def emptyEntry : TransEntry := ⟨0, 0, 0, 0, 0, 0⟩

/-- The `TransTable` struct; the bucket array is a function from bucket index
to the bucket's entry list. -/
structure TransTable where
  buckets : Nat → List TransEntry
  numBuckets : Nat
  keySize : Nat
  generation : Nat
  used : Nat

/-- The bucket index of a hash: `hash & (numBuckets - 1)`. -/
def bucketIdx (t : TransTable) (hash : Nat) : Nat := hash &&& (t.numBuckets - 1)

/-- The sizing loop of `initalizeTranspositionTable`:
`for (; 1ull << (keySize + 5) <= megabytes << 20; keySize++)`.  Structural
fuel; 64 units cover every `target < 2 ^ 64` (the loop exits before
`keySize + 5` reaches 64 there, matching the range where the C shift is
defined). -/
def adjustGo : Nat → Nat → Nat → Nat
  | 0, k, _ => k
  | fuel + 1, k, target => if 2 ^ (k + 5) ≤ target then adjustGo fuel (k + 1) target else k

/-- `initalizeTranspositionTable` (the source's spelling): starting from key
size 16, grow while the table still fits, decrement once, then allocate
`2 ^ keySize` zeroed buckets and reset `generation` and `used`.
`megabytes << 20` wraps modulo `2 ^ 64` as the C `uint64_t` does. -/
def initalizeTranspositionTable (megabytes : Nat) : TransTable :=
  let target := (megabytes <<< 20) % 2 ^ 64
  let keySize := adjustGo 64 16 target - 1
  { buckets := fun _ => List.replicate BUCKET_SIZE emptyEntry
    numBuckets := 2 ^ keySize
    keySize := keySize
    generation := 0
    used := 0 }

/-- The probe scan of `getTranspositionEntry`: first entry whose `hash16`
matches, refreshed to the current generation; returns the found entry and the
updated bucket. -/
def probeGo (gen h16 : Nat) : List TransEntry → Option TransEntry × List TransEntry
  | [] => (none, [])
  | e :: rest =>
    if e.hash16 = h16 then (some { e with age := gen }, { e with age := gen } :: rest)
    else
      let r := probeGo gen h16 rest
      (r.1, e :: r.2)

/-- `getTranspositionEntry` in a non-TEXEL build (the TEXEL build switch makes
it return NULL unconditionally; the claims address the non-TEXEL build). -/
def getTranspositionEntry (t : TransTable) (hash : Nat) : Option TransEntry × TransTable :=
  let r := probeGo t.generation (hash >>> 48) (t.buckets (bucketIdx t hash))
  (r.1, { t with buckets := fun j => if j = bucketIdx t hash then r.2 else t.buckets j })

/-- The `oldOption` / `lowDraftOption` update of the store scan:
`if (opt == NULL || opt->depth >= e.depth) opt = &entries[i]`, tracking
(index, depth). -/
def updMin (i d : Nat) : Option (Nat × Nat) → Option (Nat × Nat)
  | none => some (i, d)
  | some (j, d0) => if d0 ≥ d then some (i, d) else some (j, d0)

/-- Result of the store scan: either an immediate acceptance (with the flag
telling whether the accepted entry was unused, which bumps `used`), or the
end-of-scan `oldOption` / `lowDraftOption` accumulators. -/
inductive ScanRes where
  | immediate (i : Nat) (unused : Bool)
  | fallback (old low : Option (Nat × Nat))
  deriving DecidableEq

/-- The scan loop of `storeTranspositionEntry` (lines 118-142): accept the
first unused or key-matching entry immediately; otherwise track the
lowest-depth stale entry, and — only while no stale entry has been seen —
the lowest-depth entry overall. -/
def scanGo (gen h16 : Nat) : List TransEntry → Nat → Option (Nat × Nat) → Option (Nat × Nat) → ScanRes
  | [], _, old, low => .fallback old low
  | e :: rest, i, old, low =>
    if e.type = 0 then .immediate i true
    else if e.hash16 = h16 then .immediate i false
    else
      let old1 := if e.age ≠ gen then updMin i e.depth old else old
      let low1 := if old1 = none then updMin i e.depth low else low
      scanGo gen h16 rest (i + 1) old1 low1

/-- `storeTranspositionEntry`: scan the indexed bucket, then overwrite the
selected entry with the new data (age set to the current generation).  The
`none` fallback arm is unreachable for a nonempty bucket. -/
def storeTranspositionEntry (t : TransTable) (depth type : Nat) (value : Int)
    (bestMove hash : Nat) : TransTable :=
  let idx := bucketIdx t hash
  let es := t.buckets idx
  let h16 := hash >>> 48
  let newE : TransEntry := ⟨value, depth, t.generation, type, bestMove, h16⟩
  match scanGo t.generation h16 es 0 none none with
  | .immediate i unused =>
    { t with
      buckets := fun j => if j = idx then es.set i newE else t.buckets j
      used := if unused then t.used + 1 else t.used }
  | .fallback old low =>
    match (match old with | some x => some x | none => low) with
    | some p =>
      { t with buckets := fun j => if j = idx then es.set p.1 newE else t.buckets j }
    | none => t

/-- Claim-side description of the scan's immediate acceptance: the first
entry (with its offset) that is either unused or key-matching, together with
the flag telling whether it was accepted as unused (the source checks
`type == 0` before the key comparison). -/
def firstHit (h16 : Nat) : List TransEntry → Option (Nat × Bool)
  | [] => none
  | e :: rest =>
    if e.type = 0 then some (0, true)
    else if e.hash16 = h16 then some (0, false)
    else (firstHit h16 rest).map (fun r => (r.1 + 1, r.2))

/-- The value of the scan's `oldOption` accumulator after processing `rest`
starting at absolute index `i` (used to characterize `scanGo`). -/
def oldRes (gen : Nat) : List TransEntry → Nat → Option (Nat × Nat) → Option (Nat × Nat)
  | [], _, old => old
  | e :: rest, i, old =>
    oldRes gen rest (i + 1) (if e.age ≠ gen then updMin i e.depth old else old)

/-- The value of the scan's `lowDraftOption` accumulator after processing
`rest` starting at absolute index `i`. -/
def lowRes (gen : Nat) :
    List TransEntry → Nat → Option (Nat × Nat) → Option (Nat × Nat) → Option (Nat × Nat)
  | [], _, _, low => low
  | e :: rest, i, old, low =>
    lowRes gen rest (i + 1) (if e.age ≠ gen then updMin i e.depth old else old)
      (if (if e.age ≠ gen then updMin i e.depth old else old) = none
       then updMin i e.depth low else low)

/- ### Pawn table (`src/src/transposition.c` lines 156-175) -/

/-- The `PawnEntry` struct. -/
structure PawnEntry where
  phash : Nat
  passed : Nat
  mg : Int
  eg : Int
  deriving DecidableEq

/-- The `PawnTable`: 65536 slots, modelled as a function from slot index to
entry (indices used are always `phash >> 48 < 2 ^ 16`). -/
structure PawnTable where
  entries : Nat → PawnEntry

/-- `initalizePawnTable` (the source's spelling): `calloc` of all slots. -/
def initalizePawnTable : PawnTable := ⟨fun _ => ⟨0, 0, 0, 0⟩⟩

/-- `getPawnEntry`: direct-index by the top 16 bits, hit iff the stored full
hash matches exactly. -/
def getPawnEntry (pt : PawnTable) (phash : Nat) : Option PawnEntry :=
  let pentry := pt.entries (phash >>> 48)
  if pentry.phash = phash then some pentry else none

/-- `storePawnEntry`: unconditionally overwrite the indexed slot. -/
def storePawnEntry (pt : PawnTable) (phash passed : Nat) (mg eg : Int) : PawnTable :=
  ⟨fun j => if j = phash >>> 48 then ⟨phash, passed, mg, eg⟩ else pt.entries j⟩

/- ### Concrete boards and tables used as witnesses and counterexamples -/

/-- A board with a lone white king on e1 (square 4); every lookup table is
zero except the king attack map of e1 (d1,f1,d2,e2,f2). -/
def cbK : Board :=
  { Colors := fun c => if c = 0 then 2 ^ 4 else 0
    Pieces := fun p => if p = KING then 2 ^ 4 else 0
    KnightMap := fun _ => 0
    KingMap := fun s => if s = 4 then 0x3828 else 0
    OccupancyMaskRook := fun _ => 0
    MagicNumberRook := fun _ => 0
    MagicShiftsRook := fun _ => 0
    MoveDatabaseRook := fun _ _ => 0
    OccupancyMaskBishop := fun _ => 0
    MagicNumberBishop := fun _ => 0
    MagicShiftsBishop := fun _ => 0
    MoveDatabaseBishop := fun _ _ => 0
    ValidCastles := fun _ _ => 0
    Castled := fun _ => 0 }

/-- A board where white has a single knight on a2 (square 8) and no king at
all (the black side is empty too, so `Pieces[KING]` is 0). -/
def cbNoKing : Board :=
  { cbK with
    Colors := fun c => if c = 0 then 2 ^ 8 else 0
    Pieces := fun p => if p = KNIGHT then 2 ^ 8 else 0
    KingMap := fun s => if s = 0 then 0x302 else 0 }

/-- A board where white may castle queenside: king e1 (4), rook a1 (0), black
king e8 (60); queenside rights held, not yet castled, b1/c1/d1 empty. -/
def cbCastle : Board :=
  { cbK with
    Colors := fun c => if c = 0 then 2 ^ 0 + 2 ^ 4 else 2 ^ 60
    Pieces := fun p => if p = KING then 2 ^ 4 + 2 ^ 60 else if p = ROOK then 2 ^ 0 else 0
    ValidCastles := fun t s => if t = 0 ∧ s = 0 then 1 else 0 }

/-- A board with a white king on e1 (zero king map) and a white pawn on a2
(square 8), used to exercise the pawn generator. -/
def cbPawn : Board :=
  { cbK with
    Colors := fun c => if c = 0 then 2 ^ 4 + 2 ^ 8 else 0
    Pieces := fun p => if p = KING then 2 ^ 4 else if p = PAWN then 2 ^ 8 else 0
    KingMap := fun _ => 0 }

/-- A one-bucket table whose bucket holds a used entry tagged `hash16 = 5` at
index 0 followed by three unused entries. -/
def tMatchFirst : TransTable :=
  { buckets := fun _ => [⟨0, 9, 0, 1, 0, 5⟩, emptyEntry, emptyEntry, emptyEntry]
    numBuckets := 1
    keySize := 0
    generation := 0
    used := 7 }

/-- A one-bucket table with an entirely unused (all-zero) bucket. -/
def tEmptyBucket : TransTable :=
  { buckets := fun _ => List.replicate BUCKET_SIZE emptyEntry
    numBuckets := 1
    keySize := 0
    generation := 0
    used := 0 }

/- ### Bit-level helper lemmas -/

theorem getLSBAux_testBit : ∀ (fuel bb : Nat), bb ≠ 0 → bb < 2 ^ fuel →
    bb.testBit (getLSBAux fuel bb) = true := by
  intro fuel
  induction fuel with
  | zero =>
    intro bb h0 hlt
    simp only [pow_zero, Nat.lt_one_iff] at hlt
    exact absurd hlt h0
  | succ n ih =>
    intro bb h0 hlt
    by_cases hc : bb % 2 = 1 ∨ bb = 0
    · have h1 : bb % 2 = 1 := hc.resolve_right h0
      simp [getLSBAux, hc, h1]
    · have he : bb % 2 ≠ 1 := fun h => hc (Or.inl h)
      have hbb2 : bb / 2 ≠ 0 := by omega
      have hlt2 : bb / 2 < 2 ^ n := by
        rw [pow_succ] at hlt
        omega
      simp only [getLSBAux, if_neg hc]
      rw [Nat.testBit_succ]
      exact ih (bb / 2) hbb2 hlt2

theorem getLSB_testBit {bb : Nat} (h0 : bb ≠ 0) (hlt : bb < 2 ^ 64) :
    bb.testBit (getLSB bb) = true :=
  getLSBAux_testBit 64 bb h0 hlt

theorem testBit_lt_64 {bb i : Nat} (hlt : bb < 2 ^ 64) (h : bb.testBit i = true) : i < 64 := by
  by_contra hge
  push_neg at hge
  have hb : bb < 2 ^ i := lt_of_lt_of_le hlt (Nat.pow_le_pow_right (by norm_num) hge)
  rw [Nat.testBit_eq_false_of_lt hb] at h
  exact Bool.noConfusion h

theorem mask64_lt : MASK64 < 2 ^ 64 := by
  unfold MASK64
  have : (0 : Nat) < 2 ^ 64 := pow_pos (by norm_num) 64
  omega

theorem compl64_lt_two_pow {x : Nat} (hx : x < 2 ^ 64) : compl64 x < 2 ^ 64 :=
  Nat.xor_lt_two_pow mask64_lt hx

theorem compl64_testBit_eq_false {x i : Nat} (hi : i < 64) (hx : x.testBit i = true) :
    (compl64 x).testBit i = false := by
  unfold compl64 MASK64
  rw [Nat.testBit_xor, Nat.testBit_two_pow_sub_one]
  simp [hx, hi]

theorem mem_bitLoopAux_weak : ∀ (fuel : Nat) (emit : Nat → List Move) (bb : Nat) (m : Move),
    m ∈ bitLoopAux fuel emit bb → ∃ i, m ∈ emit i := by
  intro fuel
  induction fuel with
  | zero => intro emit bb m h; simp [bitLoopAux] at h
  | succ n ih =>
    intro emit bb m h
    simp only [bitLoopAux] at h
    by_cases hbb : bb = 0
    · rw [if_pos hbb] at h; simp at h
    · rw [if_neg hbb] at h
      rcases List.mem_append.mp h with h1 | h2
      · exact ⟨getLSB bb, h1⟩
      · exact ih _ _ _ h2

theorem mem_bitLoop_weak {emit : Nat → List Move} {bb : Nat} {m : Move}
    (h : m ∈ bitLoop emit bb) : ∃ i, m ∈ emit i :=
  mem_bitLoopAux_weak 64 emit bb m h

theorem mem_bitLoopAux : ∀ (fuel : Nat) (emit : Nat → List Move) (bb : Nat), bb < 2 ^ 64 →
    ∀ m ∈ bitLoopAux fuel emit bb, ∃ i, i < 64 ∧ bb.testBit i = true ∧ m ∈ emit i := by
  intro fuel
  induction fuel with
  | zero => intro emit bb _ m h; simp [bitLoopAux] at h
  | succ n ih =>
    intro emit bb hlt m h
    simp only [bitLoopAux] at h
    by_cases hbb : bb = 0
    · rw [if_pos hbb] at h; simp at h
    · rw [if_neg hbb] at h
      have htb := getLSB_testBit hbb hlt
      have hl64 : getLSB bb < 64 := testBit_lt_64 hlt htb
      rcases List.mem_append.mp h with h1 | h2
      · exact ⟨getLSB bb, hl64, htb, h1⟩
      · have hsh : (1 <<< getLSB bb) = 2 ^ getLSB bb := by
          rw [Nat.shiftLeft_eq, one_mul]
        have hx : bb ^^^ (1 <<< getLSB bb) < 2 ^ 64 := by
          rw [hsh]
          exact Nat.xor_lt_two_pow hlt (Nat.pow_lt_pow_right (by norm_num) hl64)
        obtain ⟨i, hi64, hib, him⟩ := ih _ _ hx m h2
        refine ⟨i, hi64, ?_, him⟩
        rw [Nat.testBit_xor, hsh] at hib
        by_cases hieq : getLSB bb = i
        · rw [← hieq, htb, Nat.testBit_two_pow_self] at hib
          exact absurd hib (by simp)
        · rw [Nat.testBit_two_pow_of_ne hieq] at hib
          simpa using hib

theorem mem_bitLoop {emit : Nat → List Move} {bb : Nat} (hlt : bb < 2 ^ 64) {m : Move}
    (h : m ∈ bitLoop emit bb) : ∃ i, i < 64 ∧ bb.testBit i = true ∧ m ∈ emit i :=
  mem_bitLoopAux 64 emit bb hlt m h

/- ### The legality filter (claim C1) -/

theorem validateCheck_filter (applyMove revertMove : Board → Move → Nat → Board) (turn : Nat)
    (hinv : ∀ (b0 : Board) (m : Move), revertMove (applyMove b0 m turn) m turn = b0) :
    ∀ (b : Board) (ms : List Move),
      validateCheck applyMove revertMove b turn ms =
        ms.filter (fun m => validateMove (applyMove b m turn) turn == 1) := by
  intro b ms
  induction ms generalizing b with
  | nil => rfl
  | cons m rest ih =>
    simp only [validateCheck, List.filter_cons, hinv b m]
    by_cases hv : validateMove (applyMove b m turn) turn = 1
    · simp only [hv, if_pos rfl, beq_self_eq_true, ih b]
    · have hb : (validateMove (applyMove b m turn) turn == 1) = false := by
        simpa using hv
      simp only [if_neg hv, hb, Bool.false_eq_true, ih b]
      simp

theorem validateCheck_subset (applyMove revertMove : Board → Move → Nat → Board) (turn : Nat) :
    ∀ (ms : List Move) (b : Board) (m : Move),
      m ∈ validateCheck applyMove revertMove b turn ms → m ∈ ms := by
  intro ms
  induction ms with
  | nil => intro b m h; simp [validateCheck] at h
  | cons x rest ih =>
    intro b m h
    simp only [validateCheck] at h
    by_cases hv : validateMove (applyMove b x turn) turn = 1
    · rw [if_pos hv] at h
      rcases List.mem_cons.mp h with h1 | h2
      · exact List.mem_cons.mpr (Or.inl h1)
      · exact List.mem_cons.mpr (Or.inr (ih _ m h2))
    · rw [if_neg hv] at h
      exact List.mem_cons.mpr (Or.inr (ih _ m h))

/-- Claim C1: for every board and side to move, `validateCheck` (as invoked by
`getAllMoves`) returns exactly the sub-list of the pseudo-legal candidates on
which `validateMove` reports the mover's king unattacked after applying the
move, preserving generation order — given the spec's contract that
`ApplyMove`/`RevertMove` are exact inverses. -/
theorem c1_legality_filter (applyMove revertMove : Board → Move → Nat → Board)
    (b : Board) (turn : Nat) (ms : List Move)
    (hinv : ∀ (b0 : Board) (m : Move), revertMove (applyMove b0 m turn) m turn = b0) :
    validateCheck applyMove revertMove b turn ms =
      ms.filter (fun m => validateMove (applyMove b m turn) turn == 1) ∧
    getAllMoves applyMove revertMove b turn =
      (pseudoLegalMoves b turn).filter
        (fun m => validateMove (applyMove b m turn) turn == 1) :=
  ⟨validateCheck_filter applyMove revertMove turn hinv b ms,
   validateCheck_filter applyMove revertMove turn hinv b (pseudoLegalMoves b turn)⟩

/-- Witness for C1 at a concrete board, move list and apply/revert pair. -/
theorem c1_legality_filter_witness :
    validateCheck (fun b0 _ _ => b0) (fun b0 _ _ => b0) cbK 0
        [⟨4, 3, 6, 5, .NormalMove⟩] = [⟨4, 3, 6, 5, .NormalMove⟩] := by
  have h := (c1_legality_filter (fun b0 _ _ => b0) (fun b0 _ _ => b0) cbK 0
      [⟨4, 3, 6, 5, .NormalMove⟩] (fun _ _ => rfl)).1
  rw [h]
  decide

/- ### Pawn cache (claims C5 and C10) -/

/-- Claim C5: `getPawnEntry` indexes by the top 16 bits of the hash and hits
iff the slot's stored full hash equals the probed hash exactly; in particular
probing a different hash with the same top-16-bit index after a store misses. -/
theorem c5_pawn_probe_exact (pt : PawnTable) (h1 h2 passed : Nat) (mg eg : Int)
    (hne : h2 ≠ h1) (hpre : h2 >>> 48 = h1 >>> 48) :
    ((pt.entries (h2 >>> 48)).phash = h2 → getPawnEntry pt h2 = some (pt.entries (h2 >>> 48))) ∧
    ((pt.entries (h2 >>> 48)).phash ≠ h2 → getPawnEntry pt h2 = none) ∧
    getPawnEntry (storePawnEntry pt h1 passed mg eg) h2 = none := by
  refine ⟨fun h => ?_, fun h => ?_, ?_⟩
  · simp [getPawnEntry, h]
  · simp [getPawnEntry, h]
  · simp [getPawnEntry, storePawnEntry, hpre, Ne.symm hne]

/-- Witness for C5: store `2^48`, probe `2^48 + 1` (same top 16 bits). -/
theorem c5_pawn_probe_exact_witness :
    getPawnEntry (storePawnEntry initalizePawnTable (2 ^ 48) 3 4 5) (2 ^ 48 + 1) = none :=
  (c5_pawn_probe_exact initalizePawnTable (2 ^ 48) (2 ^ 48 + 1) 3 4 5
    (by decide) (by decide)).2.2

/-- Claim C10: immediately after `initalizePawnTable`, probing hash 0 is a hit
on the all-zero slot (a hash that was never stored), while probing any nonzero
hash misses. -/
theorem c10_zeroed_pawn_table :
    getPawnEntry initalizePawnTable 0 = some ⟨0, 0, 0, 0⟩ ∧
    ∀ h : Nat, h ≠ 0 → getPawnEntry initalizePawnTable h = none := by
  refine ⟨rfl, fun h hne => ?_⟩
  simp [getPawnEntry, initalizePawnTable, Ne.symm hne]

/-- Witness for C10 at the nonzero hash 1. -/
theorem c10_zeroed_pawn_table_witness :
    getPawnEntry initalizePawnTable 1 = none :=
  c10_zeroed_pawn_table.2 1 (by decide)

/- ### Transposition table sizing (claim C6) -/

theorem adjustGo_spec : ∀ (fuel k target : Nat), target < 2 ^ (k + fuel + 5) →
    k ≤ adjustGo fuel k target ∧ target < 2 ^ (adjustGo fuel k target + 5) ∧
      (adjustGo fuel k target = k ∨ 2 ^ (adjustGo fuel k target + 4) ≤ target) := by
  intro fuel
  induction fuel with
  | zero =>
    intro k target hlt
    simp only [adjustGo]
    exact ⟨le_refl k, by simpa using hlt, Or.inl trivial⟩
  | succ n ih =>
    intro k target hlt
    simp only [adjustGo]
    by_cases hc : 2 ^ (k + 5) ≤ target
    · rw [if_pos hc]
      have hlt2 : target < 2 ^ (k + 1 + n + 5) := by
        rw [show k + 1 + n + 5 = k + (n + 1) + 5 by omega]
        exact hlt
      obtain ⟨h1, h2, h3⟩ := ih (k + 1) target hlt2
      refine ⟨by omega, h2, Or.inr ?_⟩
      rcases h3 with h3 | h3
      · rw [h3, show k + 1 + 4 = k + 5 by omega]
        exact hc
      · exact h3
    · rw [if_neg hc]
      push_neg at hc
      exact ⟨le_refl k, hc, Or.inl rfl⟩


theorem init_numBuckets (megabytes : Nat) :
    (initalizeTranspositionTable megabytes).numBuckets =
      2 ^ (adjustGo 64 16 ((megabytes <<< 20) % 2 ^ 64) - 1) := rfl

/-- Claim C6 counterexample: at `megabytes = 2 ^ 44` the C expression
`megabytes << 20` wraps to 0 on `uint64_t`, so the code allocates the minimum
2^15 buckets (2^20 bytes) even though 2^21 bytes would also fit below
`megabytes * 2^20` — the chosen size is not the largest power-of-two total at
or below the request, refuting the claim as stated over every megabyte
count. -/
theorem c6_counterexample :
    (initalizeTranspositionTable (2 ^ 44)).numBuckets * 32 = 2 ^ 20 ∧
    (initalizeTranspositionTable (2 ^ 44)).numBuckets * 32 * 2 ≤ 2 ^ 44 * 2 ^ 20 := by
  constructor
  · decide
  · decide

/-- Claim C6 (amended to requests below 2^43 megabytes, where the C shift
neither wraps nor overflows): `initalizeTranspositionTable` picks a
power-of-two bucket count whose 32-byte-bucket total is the largest power of
two at or below `megabytes * 2^20`, clamped below at 1MB (2^15 buckets), and
resets `generation` and `used` to zero. -/
theorem c6_table_sizing (megabytes : Nat) (hmb : megabytes < 2 ^ 43) :
    (∃ k, (initalizeTranspositionTable megabytes).numBuckets = 2 ^ k) ∧
    (megabytes = 0 → (initalizeTranspositionTable megabytes).numBuckets = 2 ^ 15) ∧
    (1 ≤ megabytes →
      (initalizeTranspositionTable megabytes).numBuckets * 32 ≤ megabytes * 2 ^ 20 ∧
      megabytes * 2 ^ 20 < (initalizeTranspositionTable megabytes).numBuckets * 64) ∧
    (initalizeTranspositionTable megabytes).generation = 0 ∧
    (initalizeTranspositionTable megabytes).used = 0 := by
  have htlt : megabytes * 2 ^ 20 < 2 ^ 64 := by
    have h1 : megabytes ≤ 2 ^ 43 - 1 := by omega
    have h2 : megabytes * 2 ^ 20 ≤ (2 ^ 43 - 1) * 2 ^ 20 := Nat.mul_le_mul_right _ h1
    have h3 : (2 ^ 43 - 1) * 2 ^ 20 < 2 ^ 64 := by norm_num
    omega
  have htgt : (megabytes <<< 20) % 2 ^ 64 = megabytes * 2 ^ 20 := by
    rw [Nat.shiftLeft_eq]
    exact Nat.mod_eq_of_lt htlt
  have hbig : megabytes * 2 ^ 20 < 2 ^ (16 + 64 + 5) :=
    lt_of_lt_of_le htlt (Nat.pow_le_pow_right (by norm_num) (by norm_num))
  obtain ⟨h16, hup, hdown⟩ := adjustGo_spec 64 16 (megabytes * 2 ^ 20) hbig
  set r := adjustGo 64 16 (megabytes * 2 ^ 20) with hr
  have hnb : (initalizeTranspositionTable megabytes).numBuckets = 2 ^ (r - 1) := by
    rw [init_numBuckets, htgt]
  have hpow32 : 2 ^ (r - 1) * 32 = 2 ^ (r + 4) := by
    calc 2 ^ (r - 1) * 32 = 2 ^ (r - 1) * 2 ^ 5 := by norm_num
      _ = 2 ^ (r - 1 + 5) := (pow_add 2 (r - 1) 5).symm
      _ = 2 ^ (r + 4) := by rw [show r - 1 + 5 = r + 4 by omega]
  have hpow64 : 2 ^ (r - 1) * 64 = 2 ^ (r + 5) := by
    calc 2 ^ (r - 1) * 64 = 2 ^ (r - 1) * 2 ^ 6 := by norm_num
      _ = 2 ^ (r - 1 + 6) := (pow_add 2 (r - 1) 6).symm
      _ = 2 ^ (r + 5) := by rw [show r - 1 + 6 = r + 5 by omega]
  refine ⟨⟨r - 1, hnb⟩, fun h0 => ?_, fun h1 => ?_, rfl, rfl⟩
  · rcases hdown with hd | hd
    · rw [hnb, hd]
    · subst h0
      simp at hd
  · constructor
    · rw [hnb, hpow32]
      rcases hdown with hd | hd
      · rw [hd]
        calc (2 : Nat) ^ (16 + 4) = 1 * 2 ^ 20 := by norm_num
          _ ≤ megabytes * 2 ^ 20 := Nat.mul_le_mul_right _ h1
      · exact hd
    · rw [hnb, hpow64]
      exact hup

/-- Witness for C6 at a 4MB request: 2^17 buckets of 32 bytes make 4MB. -/
theorem c6_table_sizing_witness :
    (initalizeTranspositionTable 4).numBuckets * 32 ≤ 4 * 2 ^ 20 ∧
    4 * 2 ^ 20 < (initalizeTranspositionTable 4).numBuckets * 64 := by
  have h := (c6_table_sizing 4 (by norm_num)).2.2.1 (by norm_num)
  exact ⟨h.1, h.2⟩

/- ### Castling and empty-source behavior of `getKingMoves` (claims C2, C7) -/

/-- Claim C2 (code bug): on a board where the side has not castled, holds the
queenside right, and no occupied square intersects the queenside castle
bitboard, `getKingMoves` emits no castle move of any kind.  The C emptiness
test `(Colors[0] | Colors[1]) & LeftCastleBoards[turn] == 0` parses as
`(Colors[0] | Colors[1]) & (LeftCastleBoards[turn] == 0)`, which is 0 whenever
the castle mask is nonzero, so the guarded emission is unreachable and the
castle move the claim requires is never produced. -/
theorem c2_castle_never_emitted :
    cbCastle.Castled 0 = 0 ∧ cbCastle.ValidCastles 0 0 = 1 ∧
    (cbCastle.Colors 0 ||| cbCastle.Colors 1) &&& LeftCastleBoards 0 = 0 ∧
    ∀ m ∈ getKingMoves cbCastle 0,
      m.Ty ≠ MType.LeftCastleMove ∧ m.Ty ≠ MType.RightCastleMove := by
  decide

/-- Claim C7 (code bug): `getKingMoves` does not tolerate an empty source
bitboard.  Its guard `board->Pieces[KING] & friendly == 0` parses as
`Pieces[KING] & (friendly == 0)`, which is 0 on this board (white has a
knight on a2 but no king), so the function falls through, reads `getLSB` of
the empty king bitboard (0 in this model, as in the usual De Bruijn table)
and emits king moves from a phantom king on square a1, where the claim
requires no iterations and no emission. -/
theorem c7_king_generator_empty_source_bug :
    cbNoKing.Pieces KING &&& cbNoKing.Colors 0 = 0 ∧
    getKingMoves cbNoKing 0 =
      [⟨0, 1, 6, 5, .NormalMove⟩, ⟨0, 9, 6, 5, .NormalMove⟩] := by
  decide

/- ### Move-type analysis of the generators (claim C8) -/

theorem testBit_and_right {a b i : Nat} (h : (a &&& b).testBit i = true) :
    b.testBit i = true := by
  simp only [Nat.testBit_and] at h
  exact (Bool.and_eq_true _ _ ▸ h).2

theorem mem_getKnightMoves_ty (b : Board) (turn : Nat) (m : Move)
    (h : m ∈ getKnightMoves b turn) : m.Ty = .NormalMove := by
  simp only [getKnightMoves] at h
  obtain ⟨bit, hb⟩ := mem_bitLoop_weak h
  obtain ⟨l, hl⟩ := mem_bitLoop_weak hb
  simp at hl
  rw [hl]

theorem mem_getBishopMoves_ty (b : Board) (turn : Nat) (m : Move)
    (h : m ∈ getBishopMoves b turn) : m.Ty = .NormalMove := by
  simp only [getBishopMoves] at h
  obtain ⟨bit, hb⟩ := mem_bitLoop_weak h
  obtain ⟨l, hl⟩ := mem_bitLoop_weak hb
  simp at hl
  rw [hl]

theorem mem_getQueenMoves_ty (b : Board) (turn : Nat) (m : Move)
    (h : m ∈ getQueenMoves b turn) : m.Ty = .NormalMove := by
  simp only [getQueenMoves] at h
  obtain ⟨bit, hb⟩ := mem_bitLoop_weak h
  rcases List.mem_append.mp hb with h1 | h1 <;>
    · obtain ⟨l, hl⟩ := mem_bitLoop_weak h1
      simp at hl
      rw [hl]

theorem mem_getRookMoves_ty (b : Board) (turn : Nat) (m : Move)
    (h : m ∈ getRookMoves b turn) : ∃ bit, m.Ty = rookMoveType b turn bit := by
  simp only [getRookMoves] at h
  obtain ⟨bit, hb⟩ := mem_bitLoop_weak h
  obtain ⟨l, hl⟩ := mem_bitLoop_weak hb
  simp at hl
  exact ⟨bit, by rw [hl]⟩

theorem rookMoveType_cases (b : Board) (turn bit : Nat) :
    rookMoveType b turn bit = .BreaksLeftCastleMove ∨
    rookMoveType b turn bit = .BreaksRightCastleMove ∨
    rookMoveType b turn bit = .NormalMove := by
  unfold rookMoveType
  split
  · exact Or.inl rfl
  · split
    · exact Or.inr (Or.inl rfl)
    · exact Or.inr (Or.inr rfl)

theorem kingMoveType_cases (b : Board) (turn : Nat) :
    kingMoveType b turn = .BreaksBothCastlesMove ∨
    kingMoveType b turn = .BreaksLeftCastleMove ∨
    kingMoveType b turn = .BreaksRightCastleMove ∨
    kingMoveType b turn = .NormalMove := by
  unfold kingMoveType
  split
  · split
    · exact Or.inl rfl
    · exact Or.inr (Or.inl rfl)
  · split
    · exact Or.inr (Or.inr (Or.inl rfl))
    · exact Or.inr (Or.inr (Or.inr rfl))

theorem mem_castles (b : Board) (turn : Nat) (m : Move)
    (h : m ∈ (if b.Castled turn = 0 then
        (if b.ValidCastles turn 0 = 1 ∧
            (b.Colors 0 ||| b.Colors 1) &&&
              (if LeftCastleBoards turn = 0 then 1 else 0) ≠ 0 then
          [castleMove .LeftCastleMove]
        else []) ++
        (if b.ValidCastles turn 1 = 1 ∧
            (b.Colors 0 ||| b.Colors 1) &&&
              (if RightCastleBoards turn = 0 then 1 else 0) ≠ 0 then
          [castleMove .RightCastleMove]
        else [])
      else ([] : List Move))) :
    m = castleMove .LeftCastleMove ∨ m = castleMove .RightCastleMove := by
  by_cases hcs : b.Castled turn = 0
  · rw [if_pos hcs] at h
    rcases List.mem_append.mp h with h1 | h1
    · by_cases hcl : b.ValidCastles turn 0 = 1 ∧
          (b.Colors 0 ||| b.Colors 1) &&&
            (if LeftCastleBoards turn = 0 then 1 else 0) ≠ 0
      · rw [if_pos hcl] at h1
        simp at h1
        exact Or.inl h1
      · rw [if_neg hcl] at h1
        simp at h1
    · by_cases hcr : b.ValidCastles turn 1 = 1 ∧
          (b.Colors 0 ||| b.Colors 1) &&&
            (if RightCastleBoards turn = 0 then 1 else 0) ≠ 0
      · rw [if_pos hcr] at h1
        simp at h1
        exact Or.inr h1
      · rw [if_neg hcr] at h1
        simp at h1
  · rw [if_neg hcs] at h
    simp at h

theorem mem_getKingMoves_ty (b : Board) (turn : Nat) (m : Move)
    (h : m ∈ getKingMoves b turn) :
    m.Ty = kingMoveType b turn ∨ m.Ty = .LeftCastleMove ∨ m.Ty = .RightCastleMove := by
  simp only [getKingMoves] at h
  by_cases hg : b.Pieces KING &&& (if b.Colors turn = 0 then 1 else 0) ≠ 0
  · rw [if_pos hg] at h
    simp at h
  · rw [if_neg hg] at h
    rcases List.mem_append.mp h with h1 | h2
    · obtain ⟨l, hl⟩ := mem_bitLoop_weak h1
      simp at hl
      exact Or.inl (by rw [hl])
    · rcases mem_castles b turn m h2 with h3 | h3 <;> subst h3
      · exact Or.inr (Or.inl rfl)
      · exact Or.inr (Or.inr rfl)

theorem mem_getPawnMoves_ty (b : Board) (turn : Nat) (m : Move)
    (h : m ∈ getPawnMoves b turn) :
    m.Ty = .NormalMove ∨ m.Ty = .PawnDoublePushMove := by
  simp only [getPawnMoves] at h
  split at h
  · rcases List.mem_append.mp h with h1 | hR
    rotate_left
    · obtain ⟨l, hl⟩ := mem_bitLoop_weak hR
      simp at hl
      exact Or.inl (by rw [hl])
    rcases List.mem_append.mp h1 with h2 | hL
    rotate_left
    · obtain ⟨l, hl⟩ := mem_bitLoop_weak hL
      simp at hl
      exact Or.inl (by rw [hl])
    rcases List.mem_append.mp h2 with hOne | hTwo
    · obtain ⟨l, hl⟩ := mem_bitLoop_weak hOne
      simp at hl
      exact Or.inl (by rw [hl])
    · obtain ⟨l, hl⟩ := mem_bitLoop_weak hTwo
      simp at hl
      exact Or.inr (by rw [hl])
  · split at h
    · rcases List.mem_append.mp h with h1 | hR
      rotate_left
      · obtain ⟨l, hl⟩ := mem_bitLoop_weak hR
        simp at hl
        exact Or.inl (by rw [hl])
      rcases List.mem_append.mp h1 with h2 | hL
      rotate_left
      · obtain ⟨l, hl⟩ := mem_bitLoop_weak hL
        simp at hl
        exact Or.inl (by rw [hl])
      rcases List.mem_append.mp h2 with hOne | hTwo
      · obtain ⟨l, hl⟩ := mem_bitLoop_weak hOne
        simp at hl
        exact Or.inl (by rw [hl])
      · obtain ⟨l, hl⟩ := mem_bitLoop_weak hTwo
        simp at hl
        exact Or.inr (by rw [hl])
    · simp at h

theorem ty_not_promote {t : MType}
    (h : t = .NormalMove ∨ t = .PawnDoublePushMove ∨ t = .BreaksLeftCastleMove ∨
         t = .BreaksRightCastleMove ∨ t = .BreaksBothCastlesMove ∨
         t = .LeftCastleMove ∨ t = .RightCastleMove) :
    t ≠ .PromoteBishopMove ∧ t ≠ .PromoteKnightMove ∧
    t ≠ .PromoteRookMove ∧ t ≠ .PromoteQueenMove := by
  rcases h with h | h | h | h | h | h | h <;> subst h <;>
    exact ⟨by decide, by decide, by decide, by decide⟩

theorem mem_pseudoLegal_ty (b : Board) (turn : Nat) (m : Move)
    (h : m ∈ pseudoLegalMoves b turn) :
    m.Ty = .NormalMove ∨ m.Ty = .PawnDoublePushMove ∨ m.Ty = .BreaksLeftCastleMove ∨
    m.Ty = .BreaksRightCastleMove ∨ m.Ty = .BreaksBothCastlesMove ∨
    m.Ty = .LeftCastleMove ∨ m.Ty = .RightCastleMove := by
  simp only [pseudoLegalMoves] at h
  rcases List.mem_append.mp h with hA | hPawn
  rotate_left
  · have := mem_getPawnMoves_ty b turn m hPawn
    tauto
  rcases List.mem_append.mp hA with hB | hBishop
  rotate_left
  · have := mem_getBishopMoves_ty b turn m hBishop
    tauto
  rcases List.mem_append.mp hB with hC | hKnight
  rotate_left
  · have := mem_getKnightMoves_ty b turn m hKnight
    tauto
  rcases List.mem_append.mp hC with hD | hRook
  rotate_left
  · obtain ⟨bit, hb⟩ := mem_getRookMoves_ty b turn m hRook
    rcases rookMoveType_cases b turn bit with hc | hc | hc <;> rw [hc] at hb <;> tauto
  rcases List.mem_append.mp hD with hKing | hQueen
  rotate_left
  · have := mem_getQueenMoves_ty b turn m hQueen
    tauto
  · rcases mem_getKingMoves_ty b turn m hKing with hk | hk | hk
    · rcases kingMoveType_cases b turn with hc | hc | hc | hc <;> rw [hc] at hk <;> tauto
    · tauto
    · tauto

/-- Claim C8: no move emitted by `getPawnMoves` — and hence no move returned
by `getAllMoves` — carries any of the four promotion tags: the promotion
bitboards are computed but never turned into emitted moves. -/
theorem c8_no_promotions (b : Board) (turn : Nat)
    (applyMove revertMove : Board → Move → Nat → Board) (m : Move)
    (h : m ∈ getPawnMoves b turn ∨ m ∈ getAllMoves applyMove revertMove b turn) :
    m.Ty ≠ .PromoteBishopMove ∧ m.Ty ≠ .PromoteKnightMove ∧
    m.Ty ≠ .PromoteRookMove ∧ m.Ty ≠ .PromoteQueenMove := by
  rcases h with h | h
  · exact ty_not_promote (by have := mem_getPawnMoves_ty b turn m h; tauto)
  · have hp := validateCheck_subset applyMove revertMove turn (pseudoLegalMoves b turn) b m h
    exact ty_not_promote (mem_pseudoLegal_ty b turn m hp)

/-- Witness for C8: the single pawn push a2-a3 on `cbPawn` is in the pawn
list (hence pseudo-legal) and carries no promotion tag. -/
theorem c8_no_promotions_witness :
    (⟨8, 16, 6, 0, .NormalMove⟩ : Move).Ty ≠ .PromoteBishopMove ∧
    (⟨8, 16, 6, 0, .NormalMove⟩ : Move).Ty ≠ .PromoteKnightMove ∧
    (⟨8, 16, 6, 0, .NormalMove⟩ : Move).Ty ≠ .PromoteRookMove ∧
    (⟨8, 16, 6, 0, .NormalMove⟩ : Move).Ty ≠ .PromoteQueenMove :=
  c8_no_promotions cbPawn 0 (fun b0 _ _ => b0) (fun b0 _ _ => b0)
    ⟨8, 16, 6, 0, .NormalMove⟩ (Or.inl (by decide))

/- ### Start ≠ End for non-castle moves (claim C9) -/

theorem start_ne_end_inner {b : Board} {turn : Nat} {mk : Nat → Move} {attbb : Nat}
    (bit : Nat) (m : Move) (h : m ∈ bitLoop (fun l => [mk l]) attbb)
    (hbit : (b.Colors turn).testBit bit = true)
    (hb64 : bit < 64)
    (hattlt : attbb < 2 ^ 64)
    (hatt : ∀ l, attbb.testBit l = true → (compl64 (b.Colors turn)).testBit l = true)
    (hmk : ∀ l, (mk l).Start = (bit : Int) ∧ (mk l).End = (l : Int)) :
    m.Start ≠ m.End := by
  obtain ⟨l, hl64, hlt, hin⟩ := mem_bitLoop hattlt h
  simp at hin
  subst hin
  obtain ⟨hS, hE⟩ := hmk l
  rw [hS, hE]
  intro heq
  have hbl : bit = l := by exact_mod_cast heq
  subst hbl
  have hc := hatt bit hlt
  rw [compl64_testBit_eq_false hb64 hbit] at hc
  exact Bool.noConfusion hc

/-- Claim C9: every non-castle move emitted by any of the six generators
satisfies Start ≠ End, on any board whose color bitboard fits in 64 bits and
whose side to move has a king (the destination sets exclude friendly squares,
which include the origin; pawn destinations differ from origins by a nonzero
shift). -/
theorem c9_start_ne_end (b : Board) (turn : Nat)
    (hfr : b.Colors turn < 2 ^ 64)
    (hking : b.Pieces KING &&& b.Colors turn ≠ 0)
    (m : Move) (h : m ∈ pseudoLegalMoves b turn)
    (hl : m.Ty ≠ .LeftCastleMove) (hr : m.Ty ≠ .RightCastleMove) :
    m.Start ≠ m.End := by
  have hcompl : compl64 (b.Colors turn) < 2 ^ 64 := compl64_lt_two_pow hfr
  simp only [pseudoLegalMoves] at h
  rcases List.mem_append.mp h with hA | hPawn
  rotate_left
  · -- pawn moves: the destination differs from the origin by a nonzero shift
    simp only [getPawnMoves] at hPawn
    split at hPawn
    · rcases List.mem_append.mp hPawn with h1 | hR
      rotate_left
      · obtain ⟨l, hl1⟩ := mem_bitLoop_weak hR
        simp at hl1
        subst hl1
        show (l : Int) - 9 ≠ (l : Int)
        omega
      rcases List.mem_append.mp h1 with h2 | hL
      rotate_left
      · obtain ⟨l, hl1⟩ := mem_bitLoop_weak hL
        simp at hl1
        subst hl1
        show (l : Int) - 7 ≠ (l : Int)
        omega
      rcases List.mem_append.mp h2 with hOne | hTwo
      · obtain ⟨l, hl1⟩ := mem_bitLoop_weak hOne
        simp at hl1
        subst hl1
        show (l : Int) - 8 ≠ (l : Int)
        omega
      · obtain ⟨l, hl1⟩ := mem_bitLoop_weak hTwo
        simp at hl1
        subst hl1
        show (l : Int) - 16 ≠ (l : Int)
        omega
    · split at hPawn
      · rcases List.mem_append.mp hPawn with h1 | hR
        rotate_left
        · obtain ⟨l, hl1⟩ := mem_bitLoop_weak hR
          simp at hl1
          subst hl1
          show (l : Int) + 9 ≠ (l : Int)
          omega
        rcases List.mem_append.mp h1 with h2 | hL
        rotate_left
        · obtain ⟨l, hl1⟩ := mem_bitLoop_weak hL
          simp at hl1
          subst hl1
          show (l : Int) + 7 ≠ (l : Int)
          omega
        rcases List.mem_append.mp h2 with hOne | hTwo
        · obtain ⟨l, hl1⟩ := mem_bitLoop_weak hOne
          simp at hl1
          subst hl1
          show (l : Int) + 8 ≠ (l : Int)
          omega
        · obtain ⟨l, hl1⟩ := mem_bitLoop_weak hTwo
          simp at hl1
          subst hl1
          show (l : Int) + 16 ≠ (l : Int)
          omega
      · simp at hPawn
  rcases List.mem_append.mp hA with hB | hBishop
  rotate_left
  · -- bishop moves
    simp only [getBishopMoves] at hBishop
    obtain ⟨bit, hb64h, hbt, hin⟩ := mem_bitLoop (Nat.and_lt_two_pow _ hfr) hBishop
    exact start_ne_end_inner bit m hin (testBit_and_right hbt)
      (testBit_lt_64 hfr (testBit_and_right hbt)) (Nat.and_lt_two_pow _ hcompl)
      (fun l hx => testBit_and_right hx) (fun l => ⟨rfl, rfl⟩)
  rcases List.mem_append.mp hB with hC | hKnight
  rotate_left
  · -- knight moves
    simp only [getKnightMoves] at hKnight
    obtain ⟨bit, hb64h, hbt, hin⟩ := mem_bitLoop (Nat.and_lt_two_pow _ hfr) hKnight
    exact start_ne_end_inner bit m hin (testBit_and_right hbt)
      (testBit_lt_64 hfr (testBit_and_right hbt)) (Nat.and_lt_two_pow _ hcompl)
      (fun l hx => testBit_and_right hx) (fun l => ⟨rfl, rfl⟩)
  rcases List.mem_append.mp hC with hD | hRook
  rotate_left
  · -- rook moves
    simp only [getRookMoves] at hRook
    obtain ⟨bit, hb64h, hbt, hin⟩ := mem_bitLoop (Nat.and_lt_two_pow _ hfr) hRook
    exact start_ne_end_inner bit m hin (testBit_and_right hbt)
      (testBit_lt_64 hfr (testBit_and_right hbt)) (Nat.and_lt_two_pow _ hcompl)
      (fun l hx => testBit_and_right hx) (fun l => ⟨rfl, rfl⟩)
  rcases List.mem_append.mp hD with hKing | hQueen
  rotate_left
  · -- queen moves: rook-type and bishop-type emissions from the same bit
    simp only [getQueenMoves] at hQueen
    obtain ⟨bit, hb64h, hbt, hin⟩ := mem_bitLoop (Nat.and_lt_two_pow _ hfr) hQueen
    rcases List.mem_append.mp hin with h3 | h3 <;>
      exact start_ne_end_inner bit m h3 (testBit_and_right hbt)
        (testBit_lt_64 hfr (testBit_and_right hbt)) (Nat.and_lt_two_pow _ hcompl)
        (fun l hx => testBit_and_right hx) (fun l => ⟨rfl, rfl⟩)
  · -- king moves
    simp only [getKingMoves] at hKing
    have hfne : b.Colors turn ≠ 0 := by
      intro h0
      exact hking (by rw [h0, Nat.and_zero])
    have hguard : ¬(b.Pieces KING &&& (if b.Colors turn = 0 then 1 else 0) ≠ 0) := by
      rw [if_neg hfne, Nat.and_zero]
      simp
    rw [if_neg hguard] at hKing
    rcases List.mem_append.mp hKing with h2 | h2
    · have hkb : b.Pieces KING &&& b.Colors turn < 2 ^ 64 := Nat.and_lt_two_pow _ hfr
      have htb : (b.Pieces KING &&& b.Colors turn).testBit
          (getLSB (b.Pieces KING &&& b.Colors turn)) = true := getLSB_testBit hking hkb
      have hfb : (b.Colors turn).testBit (getLSB (b.Pieces KING &&& b.Colors turn)) = true :=
        testBit_and_right htb
      exact start_ne_end_inner (getLSB (b.Pieces KING &&& b.Colors turn)) m h2 hfb
        (testBit_lt_64 hfr hfb) (Nat.and_lt_two_pow _ hcompl)
        (fun l hx => testBit_and_right hx) (fun l => ⟨rfl, rfl⟩)
    · rcases mem_castles b turn m h2 with h3 | h3 <;> subst h3
      · exact absurd rfl hl
      · exact absurd rfl hr

/-- Witness for C9: the king move e1-d1 on `cbK`. -/
theorem c9_start_ne_end_witness :
    (⟨4, 3, 6, 5, .NormalMove⟩ : Move).Start ≠ (⟨4, 3, 6, 5, .NormalMove⟩ : Move).End :=
  c9_start_ne_end cbK 0 (by decide) (by decide) ⟨4, 3, 6, 5, .NormalMove⟩
    (by decide) (by decide) (by decide)

/- ### The store scan of the transposition table (claims C3 and C4) -/

theorem scanGo_immediate (gen h16 : Nat) :
    ∀ (rest : List TransEntry) (k : Nat) (u : Bool), firstHit h16 rest = some (k, u) →
      ∀ (i : Nat) (old low : Option (Nat × Nat)),
        scanGo gen h16 rest i old low = .immediate (i + k) u := by
  intro rest
  induction rest with
  | nil => intro k u h; simp [firstHit] at h
  | cons e rest ih =>
    intro k u h i old low
    simp only [firstHit] at h
    simp only [scanGo]
    by_cases h0 : e.type = 0
    · rw [if_pos h0] at h
      rw [if_pos h0]
      simp at h
      obtain ⟨hk, hu⟩ := h
      subst hk
      subst hu
      simp
    · rw [if_neg h0] at h
      rw [if_neg h0]
      by_cases h1 : e.hash16 = h16
      · rw [if_pos h1] at h
        rw [if_pos h1]
        simp at h
        obtain ⟨hk, hu⟩ := h
        subst hk
        subst hu
        simp
      · rw [if_neg h1] at h
        rw [if_neg h1]
        rcases Option.map_eq_some'.mp h with ⟨r, hr, hrk⟩
        rw [ih r.1 r.2 (by rw [hr]) (i + 1) _ _]
        have hk : r.1 + 1 = k := congrArg Prod.fst hrk
        have hu : r.2 = u := congrArg Prod.snd hrk
        rw [← hk, ← hu]
        congr 1
        omega

theorem firstHit_spec (h16 : Nat) :
    ∀ (es : List TransEntry) (k : Nat) (u : Bool), firstHit h16 es = some (k, u) →
      ∃ hk : k < es.length,
        ((u = true ∧ es[k].type = 0) ∨
         (u = false ∧ es[k].type ≠ 0 ∧ es[k].hash16 = h16)) ∧
        ∀ j (hj : j < es.length), j < k → es[j].type ≠ 0 ∧ es[j].hash16 ≠ h16 := by
  intro es
  induction es with
  | nil => intro k u h; simp [firstHit] at h
  | cons e rest ih =>
    intro k u h
    simp only [firstHit] at h
    by_cases h0 : e.type = 0
    · rw [if_pos h0] at h
      simp at h
      obtain ⟨hk, hu⟩ := h
      subst hk
      subst hu
      exact ⟨by simp, Or.inl ⟨rfl, by simpa using h0⟩, fun j hj hjk => absurd hjk (by omega)⟩
    · rw [if_neg h0] at h
      by_cases h1 : e.hash16 = h16
      · rw [if_pos h1] at h
        simp at h
        obtain ⟨hk, hu⟩ := h
        subst hk
        subst hu
        exact ⟨by simp, Or.inr ⟨rfl, by simpa using h0, by simpa using h1⟩,
          fun j hj hjk => absurd hjk (by omega)⟩
      · rw [if_neg h1] at h
        rcases Option.map_eq_some'.mp h with ⟨r, hr, hrk⟩
        obtain ⟨r1, r2⟩ := r
        have hk : r1 + 1 = k := congrArg Prod.fst hrk
        have hu : r2 = u := congrArg Prod.snd hrk
        subst hk
        subst hu
        obtain ⟨hklt, hcls, hprev⟩ := ih r1 r2 hr
        refine ⟨by simpa using Nat.succ_lt_succ hklt, by simpa using hcls, ?_⟩
        intro j hj hjk
        cases j with
        | zero => exact ⟨h0, h1⟩
        | succ j =>
          have hj2 : j < rest.length := by simpa using Nat.lt_of_succ_lt_succ hj
          have := hprev j hj2 (by omega)
          simpa using this

theorem firstHit_none (h16 : Nat) :
    ∀ (es : List TransEntry), firstHit h16 es = none →
      ∀ e ∈ es, e.type ≠ 0 ∧ e.hash16 ≠ h16 := by
  intro es
  induction es with
  | nil => intro _ e he; simp at he
  | cons e rest ih =>
    intro h x hx
    simp only [firstHit] at h
    by_cases h0 : e.type = 0
    · rw [if_pos h0] at h
      simp at h
    · rw [if_neg h0] at h
      by_cases h1 : e.hash16 = h16
      · rw [if_pos h1] at h
        simp at h
      · rw [if_neg h1] at h
        have hrest : firstHit h16 rest = none := by
          cases hfh : firstHit h16 rest with
          | none => rfl
          | some r => rw [hfh] at h; simp at h
        rcases List.mem_cons.mp hx with hx1 | hx2
        · subst hx1
          exact ⟨h0, h1⟩
        · exact ih hrest x hx2

theorem scanGo_fallback (gen h16 : Nat) :
    ∀ (rest : List TransEntry), firstHit h16 rest = none →
      ∀ (i : Nat) (old low : Option (Nat × Nat)),
        scanGo gen h16 rest i old low =
          .fallback (oldRes gen rest i old) (lowRes gen rest i old low) := by
  intro rest
  induction rest with
  | nil => intro _ i old low; simp [scanGo, oldRes, lowRes]
  | cons e rest ih =>
    intro h i old low
    simp only [firstHit] at h
    by_cases h0 : e.type = 0
    · rw [if_pos h0] at h
      simp at h
    · rw [if_neg h0] at h
      by_cases h1 : e.hash16 = h16
      · rw [if_pos h1] at h
        simp at h
      · rw [if_neg h1] at h
        have hrest : firstHit h16 rest = none := by
          cases hfh : firstHit h16 rest with
          | none => rfl
          | some r => rw [hfh] at h; simp at h
        simp only [scanGo, if_neg h0, if_neg h1, oldRes, lowRes]
        exact ih hrest (i + 1) _ _

theorem updMin_ne_none (i d : Nat) (o : Option (Nat × Nat)) : updMin i d o ≠ none := by
  cases o with
  | none => simp [updMin]
  | some p =>
    obtain ⟨j, d0⟩ := p
    simp only [updMin]
    split <;> simp

theorem updMin_cases (i d : Nat) (o : Option (Nat × Nat)) (j e : Nat)
    (h : updMin i d o = some (j, e)) :
    ((j = i ∧ e = d) ∨ o = some (j, e)) ∧ e ≤ d ∧
      (∀ j0 d0, o = some (j0, d0) → e ≤ d0) := by
  cases o with
  | none =>
    simp [updMin] at h
    obtain ⟨hj, he⟩ := h
    subst hj
    subst he
    exact ⟨Or.inl ⟨rfl, rfl⟩, le_refl d, fun j0 d0 h0 => by simp at h0⟩
  | some p =>
    obtain ⟨j0, d0⟩ := p
    simp only [updMin] at h
    by_cases hge : d0 ≥ d
    · rw [if_pos hge] at h
      simp at h
      obtain ⟨hj, he⟩ := h
      subst hj
      subst he
      exact ⟨Or.inl ⟨rfl, rfl⟩, le_refl d, fun j1 d1 h1 => by
        simp at h1
        omega⟩
    · rw [if_neg hge] at h
      simp at h
      obtain ⟨hj, he⟩ := h
      subst hj
      subst he
      exact ⟨Or.inr rfl, by omega, fun j1 d1 h1 => by
        simp at h1
        omega⟩

theorem oldRes_spec (gen : Nat) :
    ∀ (rest : List TransEntry) (i : Nat) (old : Option (Nat × Nat)),
      (oldRes gen rest i old = none ↔ old = none ∧ ∀ e ∈ rest, e.age = gen) ∧
      (∀ j d, oldRes gen rest i old = some (j, d) →
        (old = some (j, d) ∨
          ∃ k, ∃ hk : k < rest.length, j = i + k ∧ rest[k].age ≠ gen ∧ d = rest[k].depth) ∧
        (∀ k (hk : k < rest.length), rest[k].age ≠ gen → d ≤ rest[k].depth) ∧
        (∀ j0 d0, old = some (j0, d0) → d ≤ d0)) := by
  intro rest
  induction rest with
  | nil =>
    intro i old
    constructor
    · simp [oldRes]
    · intro j d h
      simp only [oldRes] at h
      refine ⟨Or.inl h, fun k hk => absurd hk (by simp), fun j0 d0 h0 => ?_⟩
      rw [h] at h0
      simp at h0
      omega
  | cons e rest ih =>
    intro i old
    by_cases he : e.age = gen
    · -- current-generation head: the accumulator passes through unchanged
      have hstep : oldRes gen (e :: rest) i old = oldRes gen rest (i + 1) old := by
        simp only [oldRes, if_neg (not_not.mpr he)]
      obtain ⟨ih1, ih2⟩ := ih (i + 1) old
      constructor
      · rw [hstep, ih1]
        constructor
        · rintro ⟨h1, h2⟩
          refine ⟨h1, fun x hx => ?_⟩
          rcases List.mem_cons.mp hx with hx1 | hx2
          · rw [hx1]; exact he
          · exact h2 x hx2
        · rintro ⟨h1, h2⟩
          exact ⟨h1, fun x hx => h2 x (List.mem_cons.mpr (Or.inr hx))⟩
      · intro j d h
        rw [hstep] at h
        obtain ⟨hcand, hmin, hold⟩ := ih2 j d h
        refine ⟨?_, ?_, hold⟩
        · rcases hcand with hc | ⟨k, hk, hjk, hkst, hkd⟩
          · exact Or.inl hc
          · exact Or.inr ⟨k + 1, by simpa using Nat.succ_lt_succ hk, by omega,
              by simpa using hkst, by simpa using hkd⟩
        · intro k hk hkst
          cases k with
          | zero =>
            simp at hkst
            exact absurd he hkst
          | succ k =>
            have hk2 : k < rest.length := by simpa using Nat.lt_of_succ_lt_succ hk
            have := hmin k hk2 (by simpa using hkst)
            simpa using this
    · -- stale head: the accumulator is updated through `updMin`
      have hstep : oldRes gen (e :: rest) i old =
          oldRes gen rest (i + 1) (updMin i e.depth old) := by
        simp only [oldRes, if_pos he]
      obtain ⟨⟨j1, d1⟩, hupd⟩ : ∃ p, updMin i e.depth old = some p := by
        cases hu : updMin i e.depth old with
        | none => exact absurd hu (updMin_ne_none _ _ _)
        | some p => exact ⟨p, rfl⟩
      obtain ⟨hu1, hu2, hu3⟩ := updMin_cases i e.depth old j1 d1 hupd
      obtain ⟨ih1, ih2⟩ := ih (i + 1) (updMin i e.depth old)
      constructor
      · rw [hstep]
        constructor
        · intro h
          exact absurd (ih1.mp h).1 (updMin_ne_none _ _ _)
        · rintro ⟨-, hall⟩
          exact absurd (hall e (by simp)) he
      · intro j d h
        rw [hstep] at h
        obtain ⟨hcand, hmin, hold⟩ := ih2 j d h
        have hd1 : d ≤ d1 := hold j1 d1 hupd
        refine ⟨?_, ?_, ?_⟩
        · rcases hcand with hc | ⟨k, hk, hjk, hkst, hkd⟩
          · rw [hupd] at hc
            simp at hc
            obtain ⟨hj1, hdd1⟩ := hc
            rcases hu1 with ⟨hji, hde⟩ | holdv
            · refine Or.inr ⟨0, by simp, by omega, by simpa using he, ?_⟩
              simp
              omega
            · rw [hj1, hdd1] at holdv
              exact Or.inl holdv
          · exact Or.inr ⟨k + 1, by simpa using Nat.succ_lt_succ hk, by omega,
              by simpa using hkst, by simpa using hkd⟩
        · intro k hk hkst
          cases k with
          | zero =>
            simp
            omega
          | succ k =>
            have hk2 : k < rest.length := by simpa using Nat.lt_of_succ_lt_succ hk
            have := hmin k hk2 (by simpa using hkst)
            simpa using this
        · intro j0 d0 h0
          have := hu3 j0 d0 h0
          omega

theorem lowRes_spec (gen : Nat) :
    ∀ (rest : List TransEntry) (i : Nat) (low : Option (Nat × Nat)),
      (∀ e ∈ rest, e.age = gen) →
      (lowRes gen rest i none low = none ↔ low = none ∧ rest = []) ∧
      (∀ j d, lowRes gen rest i none low = some (j, d) →
        (low = some (j, d) ∨ ∃ k, ∃ hk : k < rest.length, j = i + k ∧ d = rest[k].depth) ∧
        (∀ k (hk : k < rest.length), d ≤ rest[k].depth) ∧
        (∀ j0 d0, low = some (j0, d0) → d ≤ d0)) := by
  intro rest
  induction rest with
  | nil =>
    intro i low hall
    constructor
    · simp [lowRes]
    · intro j d h
      simp only [lowRes] at h
      refine ⟨Or.inl h, fun k hk => absurd hk (by simp), fun j0 d0 h0 => ?_⟩
      rw [h] at h0
      simp at h0
      omega
  | cons e rest ih =>
    intro i low hall
    have he : e.age = gen := hall e (by simp)
    have hcnd : ¬e.age ≠ gen := not_not.mpr he
    have hstep : lowRes gen (e :: rest) i none low =
        lowRes gen rest (i + 1) none (updMin i e.depth low) := by
      simp only [lowRes, if_neg hcnd]
      simp
    obtain ⟨⟨j1, d1⟩, hupd⟩ : ∃ p, updMin i e.depth low = some p := by
      cases hu : updMin i e.depth low with
      | none => exact absurd hu (updMin_ne_none _ _ _)
      | some p => exact ⟨p, rfl⟩
    obtain ⟨hu1, hu2, hu3⟩ := updMin_cases i e.depth low j1 d1 hupd
    obtain ⟨ih1, ih2⟩ := ih (i + 1) (updMin i e.depth low)
      (fun x hx => hall x (List.mem_cons.mpr (Or.inr hx)))
    constructor
    · rw [hstep, ih1]
      constructor
      · rintro ⟨h1, -⟩
        exact absurd h1 (updMin_ne_none _ _ _)
      · rintro ⟨-, h2⟩
        simp at h2
    · intro j d h
      rw [hstep] at h
      obtain ⟨hcand, hmin, hlow⟩ := ih2 j d h
      have hd1 : d ≤ d1 := hlow j1 d1 hupd
      refine ⟨?_, ?_, ?_⟩
      · rcases hcand with hc | ⟨k, hk, hjk, hkd⟩
        · rw [hupd] at hc
          simp at hc
          obtain ⟨hj1, hdd1⟩ := hc
          rcases hu1 with ⟨hji, hde⟩ | hlowv
          · refine Or.inr ⟨0, by simp, by omega, ?_⟩
            simp
            omega
          · rw [hj1, hdd1] at hlowv
            exact Or.inl hlowv
        · exact Or.inr ⟨k + 1, by simpa using Nat.succ_lt_succ hk, by omega,
            by simpa using hkd⟩
      · intro k hk
        cases k with
        | zero =>
          simp
          omega
        | succ k =>
          have hk2 : k < rest.length := by simpa using Nat.lt_of_succ_lt_succ hk
          have := hmin k hk2
          simpa using this
      · intro j0 d0 h0
        have := hu3 j0 d0 h0
        omega

theorem store_eq (t : TransTable) (depth type : Nat) (value : Int) (bestMove hash : Nat) :
    storeTranspositionEntry t depth type value bestMove hash =
      (match scanGo t.generation (hash >>> 48) (t.buckets (bucketIdx t hash)) 0 none none with
       | .immediate i unused =>
         { t with
           buckets := fun j => if j = bucketIdx t hash then (t.buckets (bucketIdx t hash)).set i (⟨value, depth, t.generation, type, bestMove, hash >>> 48⟩ : TransEntry) else t.buckets j
           used := if unused then t.used + 1 else t.used }
       | .fallback old low =>
         match (match old with | some x => some x | none => low) with
         | some p =>
           { t with buckets := fun j => if j = bucketIdx t hash then (t.buckets (bucketIdx t hash)).set p.1 (⟨value, depth, t.generation, type, bestMove, hash >>> 48⟩ : TransEntry) else t.buckets j }
         | none => t) := rfl

theorem store_numBuckets (t : TransTable) (depth type : Nat) (value : Int)
    (bestMove hash : Nat) :
    (storeTranspositionEntry t depth type value bestMove hash).numBuckets = t.numBuckets := by
  rw [store_eq]
  cases scanGo t.generation (hash >>> 48) (t.buckets (bucketIdx t hash)) 0 none none with
  | immediate i u => rfl
  | fallback old low =>
    cases old with
    | some x => rfl
    | none =>
      cases low with
      | some p => rfl
      | none => rfl

theorem store_generation (t : TransTable) (depth type : Nat) (value : Int)
    (bestMove hash : Nat) :
    (storeTranspositionEntry t depth type value bestMove hash).generation = t.generation := by
  rw [store_eq]
  cases scanGo t.generation (hash >>> 48) (t.buckets (bucketIdx t hash)) 0 none none with
  | immediate i u => rfl
  | fallback old low =>
    cases old with
    | some x => rfl
    | none =>
      cases low with
      | some p => rfl
      | none => rfl

/-- The core characterization of the store scan: the selected entry index,
the fact that no earlier entry key-matches, that other buckets are untouched,
and the replacement-policy description of the selected index. -/
theorem store_selects (t : TransTable) (depth type : Nat) (value : Int) (bestMove hash : Nat)
    (hne : t.buckets (bucketIdx t hash) ≠ []) :
    ∃ p, ∃ hp : p < (t.buckets (bucketIdx t hash)).length,
      (storeTranspositionEntry t depth type value bestMove hash).buckets (bucketIdx t hash) =
        (t.buckets (bucketIdx t hash)).set p
          ⟨value, depth, t.generation, type, bestMove, hash >>> 48⟩ ∧
      (∀ j (hj : j < (t.buckets (bucketIdx t hash)).length), j < p →
        (t.buckets (bucketIdx t hash))[j].hash16 ≠ hash >>> 48) ∧
      (∀ j2, j2 ≠ bucketIdx t hash →
        (storeTranspositionEntry t depth type value bestMove hash).buckets j2 = t.buckets j2) ∧
      (match firstHit (hash >>> 48) (t.buckets (bucketIdx t hash)) with
       | some (q, u) =>
         p = q ∧ (storeTranspositionEntry t depth type value bestMove hash).used =
           (if u then t.used + 1 else t.used)
       | none =>
         (storeTranspositionEntry t depth type value bestMove hash).used = t.used ∧
         (((t.buckets (bucketIdx t hash))[p].age ≠ t.generation ∧
           ∀ k, ∀ hk : k < (t.buckets (bucketIdx t hash)).length,
             (t.buckets (bucketIdx t hash))[k].age ≠ t.generation →
             (t.buckets (bucketIdx t hash))[p].depth ≤
               (t.buckets (bucketIdx t hash))[k].depth) ∨
          ((∀ k, ∀ hk : k < (t.buckets (bucketIdx t hash)).length,
             (t.buckets (bucketIdx t hash))[k].age = t.generation) ∧
           ∀ k, ∀ hk : k < (t.buckets (bucketIdx t hash)).length,
             (t.buckets (bucketIdx t hash))[p].depth ≤
               (t.buckets (bucketIdx t hash))[k].depth))) := by
  cases hfh : firstHit (hash >>> 48) (t.buckets (bucketIdx t hash)) with
  | some r =>
    obtain ⟨q, u⟩ := r
    obtain ⟨hq, hcls, hprev⟩ := firstHit_spec _ _ q u hfh
    have hscan := scanGo_immediate t.generation (hash >>> 48) _ q u hfh 0 none none
    rw [Nat.zero_add] at hscan
    refine ⟨q, hq, ?_, ?_, ?_, ?_⟩
    · rw [store_eq, hscan]
      show (if bucketIdx t hash = bucketIdx t hash then _ else _) = _
      rw [if_pos rfl]
    · intro j hj hjq
      exact (hprev j hj hjq).2
    · intro j2 hj2
      rw [store_eq, hscan]
      exact if_neg hj2
    · refine ⟨rfl, ?_⟩
      rw [store_eq, hscan]
  | none =>
    have hall := firstHit_none _ _ hfh
    have hscan := scanGo_fallback t.generation (hash >>> 48) _ hfh 0 none none
    have hnomatch : ∀ j (hj : j < (t.buckets (bucketIdx t hash)).length),
        (t.buckets (bucketIdx t hash))[j].hash16 ≠ hash >>> 48 :=
      fun j hj => (hall _ (List.getElem_mem hj)).2
    cases hold : oldRes t.generation (t.buckets (bucketIdx t hash)) 0 none with
    | some po =>
      obtain ⟨j, d⟩ := po
      obtain ⟨-, ho2⟩ := oldRes_spec t.generation (t.buckets (bucketIdx t hash)) 0 none
      obtain ⟨hcand, hmin, -⟩ := ho2 j d hold
      have hcand2 : ∃ hk : j < (t.buckets (bucketIdx t hash)).length,
          (t.buckets (bucketIdx t hash))[j].age ≠ t.generation ∧
          d = (t.buckets (bucketIdx t hash))[j].depth := by
        rcases hcand with hc | ⟨k, hk, hjk, hst, hd2⟩
        · simp at hc
        · have hjeq : j = k := by omega
          subst hjeq
          exact ⟨hk, hst, hd2⟩
      obtain ⟨hjlt, hjst, hjd⟩ := hcand2
      refine ⟨j, hjlt, ?_, fun j2 hj2 _ => hnomatch j2 hj2, ?_, ?_⟩
      · rw [store_eq, hscan, hold]
        show (if bucketIdx t hash = bucketIdx t hash then _ else _) = _
        rw [if_pos rfl]
      · intro j2 hj2
        rw [store_eq, hscan, hold]
        exact if_neg hj2
      · refine ⟨?_, Or.inl ⟨hjst, ?_⟩⟩
        · rw [store_eq, hscan, hold]
        · intro k hk hkst
          have := hmin k hk hkst
          omega
    | none =>
      obtain ⟨ho1, -⟩ := oldRes_spec t.generation (t.buckets (bucketIdx t hash)) 0 none
      have hallgen : ∀ e ∈ t.buckets (bucketIdx t hash), e.age = t.generation :=
        (ho1.mp hold).2
      obtain ⟨hl1, hl2⟩ := lowRes_spec t.generation (t.buckets (bucketIdx t hash)) 0 none hallgen
      cases hlow : lowRes t.generation (t.buckets (bucketIdx t hash)) 0 none none with
      | none =>
        obtain ⟨-, hnil⟩ := hl1.mp hlow
        exact absurd hnil hne
      | some pl =>
        obtain ⟨j, d⟩ := pl
        obtain ⟨hcand, hmin, -⟩ := hl2 j d hlow
        have hcand2 : ∃ hk : j < (t.buckets (bucketIdx t hash)).length,
            d = (t.buckets (bucketIdx t hash))[j].depth := by
          rcases hcand with hc | ⟨k, hk, hjk, hd2⟩
          · simp at hc
          · have hjeq : j = k := by omega
            subst hjeq
            exact ⟨hk, hd2⟩
        obtain ⟨hjlt, hjd⟩ := hcand2
        refine ⟨j, hjlt, ?_, fun j2 hj2 _ => hnomatch j2 hj2, ?_, ?_⟩
        · rw [store_eq, hscan, hold, hlow]
          show (if bucketIdx t hash = bucketIdx t hash then _ else _) = _
          rw [if_pos rfl]
        · intro j2 hj2
          rw [store_eq, hscan, hold, hlow]
          exact if_neg hj2
        · refine ⟨?_, Or.inr ⟨?_, ?_⟩⟩
          · rw [store_eq, hscan, hold, hlow]
          · intro k hk
            exact hallgen _ (List.getElem_mem hk)
          · intro k hk
            have := hmin k hk
            omega

/-- Claim C3 counterexample: in `tMatchFirst`'s bucket an unused entry exists
at index 1, but storing a hash whose 16-bit key matches entry 0 overwrites
entry 0 and leaves the used counter unchanged.  The scan stops at the first
entry that is unused OR key-matching, so a key match at an earlier index takes
precedence over a later unused entry, refuting the claimed global priority of
the first unused entry. -/
theorem c3_counterexample :
    ((tMatchFirst.buckets 0).any (fun e => e.type == 0)) = true ∧
    (storeTranspositionEntry tMatchFirst 3 1 7 9 (5 <<< 48)).used = tMatchFirst.used ∧
    (storeTranspositionEntry tMatchFirst 3 1 7 9 (5 <<< 48)).buckets 0 =
      [⟨7, 3, 0, 1, 9, 5⟩, emptyEntry, emptyEntry, emptyEntry] := by
  decide

/-- Claim C3 (amended): a call to `storeTranspositionEntry` with depth in
`[0, MAX_DEPTH)`, a valid node type and `|value| ≤ MATE` overwrites exactly
one entry of the indexed bucket, chosen by a single in-order scan that accepts
immediately the first entry that is unused (`type == 0`, incrementing the used
counter) or whose stored 16-bit key equals the top 16 bits of the hash;
failing an immediate acceptance, the lowest-depth entry among entries whose
age differs from the current generation; else (all entries being of the
current generation) the lowest-depth entry of the bucket. -/
theorem c3_store_replacement_policy (t : TransTable) (depth type : Nat) (value : Int)
    (bestMove hash : Nat)
    (hd : depth < MAX_DEPTH)
    (ht : type = PVNODE ∨ type = CUTNODE ∨ type = ALLNODE)
    (hv : -MATE ≤ value ∧ value ≤ MATE)
    (hne : t.buckets (bucketIdx t hash) ≠ []) :
    (∀ j2, j2 ≠ bucketIdx t hash →
      (storeTranspositionEntry t depth type value bestMove hash).buckets j2 = t.buckets j2) ∧
    ∃ p, ∃ hp : p < (t.buckets (bucketIdx t hash)).length,
      (storeTranspositionEntry t depth type value bestMove hash).buckets (bucketIdx t hash) =
        (t.buckets (bucketIdx t hash)).set p
          ⟨value, depth, t.generation, type, bestMove, hash >>> 48⟩ ∧
      (match firstHit (hash >>> 48) (t.buckets (bucketIdx t hash)) with
       | some (q, u) =>
         p = q ∧ (storeTranspositionEntry t depth type value bestMove hash).used =
           (if u then t.used + 1 else t.used)
       | none =>
         (storeTranspositionEntry t depth type value bestMove hash).used = t.used ∧
         (((t.buckets (bucketIdx t hash))[p].age ≠ t.generation ∧
           ∀ k, ∀ hk : k < (t.buckets (bucketIdx t hash)).length,
             (t.buckets (bucketIdx t hash))[k].age ≠ t.generation →
             (t.buckets (bucketIdx t hash))[p].depth ≤
               (t.buckets (bucketIdx t hash))[k].depth) ∨
          ((∀ k, ∀ hk : k < (t.buckets (bucketIdx t hash)).length,
             (t.buckets (bucketIdx t hash))[k].age = t.generation) ∧
           ∀ k, ∀ hk : k < (t.buckets (bucketIdx t hash)).length,
             (t.buckets (bucketIdx t hash))[p].depth ≤
               (t.buckets (bucketIdx t hash))[k].depth))) := by
  obtain ⟨p, hp, hset, -, hother, hpolicy⟩ :=
    store_selects t depth type value bestMove hash hne
  exact ⟨hother, p, hp, hset, hpolicy⟩

/-- Witness for C3: storing into an all-unused bucket takes the first slot
and bumps the used counter. -/
theorem c3_store_replacement_policy_witness :
    (storeTranspositionEntry tEmptyBucket 3 1 7 9 (5 <<< 48)).used = 1 ∧
    (storeTranspositionEntry tEmptyBucket 3 1 7 9 (5 <<< 48)).buckets 0 =
      [⟨7, 3, 0, 1, 9, 5⟩, emptyEntry, emptyEntry, emptyEntry] := by
  obtain ⟨-, p, hp, hset, hmatch⟩ := c3_store_replacement_policy tEmptyBucket 3 1 7 9 (5 <<< 48)
    (by decide) (Or.inl rfl) (by decide) (by decide)
  have hfh : firstHit ((5 <<< 48) >>> 48)
      (tEmptyBucket.buckets (bucketIdx tEmptyBucket (5 <<< 48))) = some (0, true) := by decide
  rw [hfh] at hmatch
  obtain ⟨hp0, hused⟩ := hmatch
  subst hp0
  have hidx : bucketIdx tEmptyBucket (5 <<< 48) = 0 := by decide
  rw [hidx] at hset
  constructor
  · simpa using hused
  · rw [hset]
    decide

/- ### Store-then-probe round trip (claim C4) -/

theorem probeGo_first (gen h16 : Nat) :
    ∀ (es : List TransEntry) (p : Nat) (hp : p < es.length),
      (∀ j (hj : j < es.length), j < p → es[j].hash16 ≠ h16) →
      es[p].hash16 = h16 →
      (probeGo gen h16 es).1 = some { es[p] with age := gen } := by
  intro es
  induction es with
  | nil => intro p hp; simp at hp
  | cons e rest ih =>
    intro p hp hprev hmatch
    cases p with
    | zero =>
      simp at hmatch
      simp [probeGo, hmatch]
    | succ p =>
      have hne0 : e.hash16 ≠ h16 := by
        have := hprev 0 (by simp) (by omega)
        simpa using this
      have hp2 : p < rest.length := by simpa using Nat.lt_of_succ_lt_succ hp
      have hprev2 : ∀ j (hj : j < rest.length), j < p → rest[j].hash16 ≠ h16 := by
        intro j hj hjp
        have := hprev (j + 1) (by simpa using Nat.succ_lt_succ hj) (by omega)
        simpa using this
      have := ih p hp2 hprev2 (by simpa using hmatch)
      simp only [probeGo, if_neg hne0]
      simpa using this

theorem probe_fst (t : TransTable) (hash : Nat) :
    (getTranspositionEntry t hash).1 =
      (probeGo t.generation (hash >>> 48) (t.buckets (bucketIdx t hash))).1 := rfl

/-- Claim C4: in a non-TEXEL build, a `storeTranspositionEntry` immediately
followed by `getTranspositionEntry` with the same hash (no intervening store)
returns a non-null entry whose value, depth, type, bestMove and hash16 fields
equal what was stored, with age equal to the current generation. -/
theorem c4_store_then_probe (t : TransTable) (depth type : Nat) (value : Int)
    (bestMove hash : Nat)
    (hd : depth < MAX_DEPTH)
    (ht : type = PVNODE ∨ type = CUTNODE ∨ type = ALLNODE)
    (hv : -MATE ≤ value ∧ value ≤ MATE)
    (hne : t.buckets (bucketIdx t hash) ≠ []) :
    (getTranspositionEntry (storeTranspositionEntry t depth type value bestMove hash) hash).1 =
      some ⟨value, depth, t.generation, type, bestMove, hash >>> 48⟩ := by
  obtain ⟨p, hp, hset, hnomatch, -, -⟩ := store_selects t depth type value bestMove hash hne
  have hidx : bucketIdx (storeTranspositionEntry t depth type value bestMove hash) hash =
      bucketIdx t hash := by
    unfold bucketIdx
    rw [store_numBuckets]
  rw [probe_fst, hidx, store_generation, hset]
  have hlen : p < ((t.buckets (bucketIdx t hash)).set p
      ⟨value, depth, t.generation, type, bestMove, hash >>> 48⟩).length := by
    rw [List.length_set]
    exact hp
  have hprev : ∀ j (hj : j < ((t.buckets (bucketIdx t hash)).set p
      ⟨value, depth, t.generation, type, bestMove, hash >>> 48⟩).length), j < p →
      ((t.buckets (bucketIdx t hash)).set p
        ⟨value, depth, t.generation, type, bestMove, hash >>> 48⟩)[j].hash16 ≠ hash >>> 48 := by
    intro j hj hjp
    have hj2 : j < (t.buckets (bucketIdx t hash)).length := by
      rw [List.length_set] at hj
      exact hj
    rw [List.getElem_set_ne (by omega)]
    exact hnomatch j hj2 hjp
  have hmatch : ((t.buckets (bucketIdx t hash)).set p
      ⟨value, depth, t.generation, type, bestMove, hash >>> 48⟩)[p].hash16 = hash >>> 48 := by
    rw [List.getElem_set_self]
  have := probeGo_first t.generation (hash >>> 48) _ p hlen hprev hmatch
  rw [List.getElem_set_self] at this
  exact this

/-- Witness for C4: a store into `tMatchFirst` (where the key matches slot 0)
probed back with the same hash returns exactly the stored fields. -/
theorem c4_store_then_probe_witness :
    (getTranspositionEntry (storeTranspositionEntry tMatchFirst 3 1 7 9 (5 <<< 48))
        (5 <<< 48)).1 = some ⟨7, 3, 0, 1, 9, 5⟩ := by
  have h := c4_store_then_probe tMatchFirst 3 1 7 9 (5 <<< 48)
    (by decide) (Or.inl rfl) (by decide) (by decide)
  exact h

end Ethereal
